import Mathlib

/-!
Text buffer of the terminal editor (`tex.cpp`).

A shallow embedding of the row and buffer operations, the cursor movement, the key
handler and the file loader of `tex.cpp`.

* A `std::string` is a `List Char` (one `Char` per byte, the NUL byte included).
* A `std::vector<Row>` is a `List Row`.
* `int` values are `Int`, `size_t` values are `Nat`; where the source compares an
  `int` with a `size_t` without a preceding sign test, the conversion to `size_t`
  is written out (`toSizeT`), and so are the conversions of a `size_t` argument to `int`
  (`toInt`) and of an `int` key to `char` (`toChar`).  Row counts and string lengths are
  taken to fit an `int`, so that `index++`, `cursor_y + 1` and `static_cast<int>(length)`
  do not wrap.  The increment `cursor_x++` of `insert_char`, whose operand no length
  bounds, is taken on 32 bits (`wrapInt`).
* The key read by `getch()` and the content of the file opened by `load_file` are
  parameters.
* The global `edit` is passed explicitly.  An operation that indexes a vector or a
  string returns an `Option`: `none` stands for an access the C++ standard library does not define or answers
  with an exception (an index outside a vector or a string).
-/

namespace Tex

/-! ## Data model -/

/-- The constant `TAB_STOP` of the source. -/
def TAB_STOP : Nat := 4

/-- The NUL byte. -/
def NUL : Char := Char.ofNat 0

/-- The source's `struct Row`: `characters` is the raw content, `printed` the display form. -/
structure Row where
  index : Int
  characters : List Char
  printed : List Char
  highlight_open_comment : Int
deriving DecidableEq, Repr

/-- The source's `struct Editor`. -/
structure Editor where
  filename : List Char
  number_of_rows : Nat
  cursor_x : Int
  cursor_y : Int
  screen_rows : List (List Char)
  rows : List Row
deriving DecidableEq, Repr

/-- The value-initialised `Row()` of the source. -/
def Row.fresh : Row :=
  { index := 0, characters := [], printed := [], highlight_open_comment := 0 }

/-- Conversion of an `int` to `size_t` (64 bit), as the usual arithmetic conversions do. -/
def toSizeT (x : Int) : Nat := (x % (2 : Int) ^ 64).toNat

/-! ## `std::string` and `std::vector` primitives -/

/-- The call `s.resize(n)`: truncates, or pads with NUL bytes. -/
def str_resize (s : List Char) (n : Nat) : List Char :=
  s.take n ++ List.replicate (n - s.length) NUL

/-- The call `s.replace(pos, len, n, c)`: throws when `pos > s.size()`. -/
def str_replace (s : List Char) (pos len n : Nat) (c : Char) : Option (List Char) :=
  if pos > s.length then none
  else some (s.take pos ++ List.replicate n c ++ s.drop (pos + min len (s.length - pos)))

/-- The assignment `s[i] = c`: defined only for `i < s.size()`. -/
def str_set (s : List Char) (i : Nat) (c : Char) : Option (List Char) :=
  if i < s.length then some (s.set i c) else none

/-- The call `s.substr(pos, n)`: throws when `pos > s.size()`. -/
def str_substr (s : List Char) (pos n : Nat) : Option (List Char) :=
  if pos > s.length then none else some ((s.drop pos).take n)

/-- The call `s.insert(pos, 1, c)`: throws when `pos > s.size()`. -/
def str_insert (s : List Char) (pos : Nat) (c : Char) : Option (List Char) :=
  if pos > s.length then none else some (s.take pos ++ c :: s.drop pos)

/-- The call `s.erase(pos, 1)`: throws when `pos > s.size()`. -/
def str_erase (s : List Char) (pos : Nat) : Option (List Char) :=
  if pos > s.length then none else some (s.take pos ++ s.drop (pos + 1))

/-- The element access `rows[i]` with an `int` index: defined only inside the vector. -/
def vec_at (rows : List Row) (i : Int) : Option Row :=
  if i < 0 then none else rows[i.toNat]?

/-- The store `rows[i] = r` through a pointer taken with `&rows[i]`. -/
def vec_put (rows : List Row) (i : Int) (r : Row) : List Row :=
  rows.set i.toNat r

/-- The call `rows.insert(rows.begin() + pos, r)`: defined only for `pos <= rows.size()`. -/
def vec_insert (rows : List Row) (pos : Nat) (r : Row) : Option (List Row) :=
  if pos > rows.length then none else some (rows.take pos ++ r :: rows.drop pos)

/-- The call `rows.erase(rows.begin() + pos)`: defined only for `pos < rows.size()`. -/
def vec_erase (rows : List Row) (pos : Nat) : Option (List Row) :=
  if pos < rows.length then some (rows.take pos ++ rows.drop (pos + 1)) else none

/-! ## Row operations -/

/-- First loop of `update_row`: counts the tabs of the raw content. -/
def count_tabs : List Char → Nat → Nat
  | [], tabs => tabs
  | c :: cs, tabs => count_tabs cs (if c = '\t' then tabs + 1 else tabs)

/-- Second loop of `update_row`: writes the expansion into `printed`, from offset `index`. -/
def expand_loop : List Char → List Char → Nat → Option (List Char × Nat)
  | [], printed, index => some (printed, index)
  | c :: cs, printed, index =>
    if c = '\t' then
      let spaces_to_add := TAB_STOP - index % TAB_STOP
      match str_replace printed index spaces_to_add spaces_to_add ' ' with
      | none => none
      | some p => expand_loop cs p (index + spaces_to_add)
    else
      match str_set printed index c with
      | none => none
      | some p => expand_loop cs p (index + 1)

/-- The source's `update_row`. -/
def update_row (row : Row) : Option Row :=
  let len := row.characters.length
  let tabs := count_tabs row.characters 0
  let printed := str_resize row.printed (len + tabs * (TAB_STOP - 1))
  match expand_loop row.characters printed 0 with
  | none => none
  | some (p, index) => some { row with printed := str_resize p index }

/-- Reference tab expansion, as the specification words it: scan the raw content with an
output column counter; a tab emits `4 - column mod 4` spaces, any other character is copied. -/
def expandFrom : Nat → List Char → List Char
  | _, [] => []
  | col, c :: cs =>
    if c = '\t' then
      List.replicate (4 - col % 4) ' ' ++ expandFrom (col + (4 - col % 4)) cs
    else
      c :: expandFrom (col + 1) cs

/-- Reference tab expansion of a whole raw row. -/
def tabExpansion (raw : List Char) : List Char := expandFrom 0 raw

/-- The source's `insert_char_to_row`. -/
def insert_char_to_row (row : Row) (pos : Int) (c : Char) : Option Row :=
  let rlen : Int := row.characters.length
  let pos := if pos < 0 ∨ pos > rlen then rlen else pos
  match str_insert row.characters pos.toNat c with
  | none => none
  | some s => update_row { row with characters := s }

/-- The source's `delete_char_in_row`. -/
def delete_char_in_row (row : Row) (pos : Int) : Option Row :=
  let rlen := row.characters.length
  if pos < 0 ∨ pos ≥ (rlen : Int) then some row
  else
    match str_erase row.characters pos.toNat with
    | none => none
    | some s => update_row { row with characters := s }

/-- The source's `add_string_to_row`: a `resize`, one NUL store at the old length, and
`update_row`; `str` is read for its length only. -/
def add_string_to_row (row : Row) (str : List Char) : Option Row :=
  let rlen := row.characters.length
  let resized := str_resize row.characters (rlen + str.length + 1)
  match str_set resized rlen NUL with
  | none => none
  | some s => update_row { row with characters := s }

/-! ## Buffer operations -/

/-- A loop `for (i = start; ...; ++i) rows[i].index += d` running `count` times. -/
def shift_indices (d : Int) : Nat → Nat → List Row → Option (List Row)
  | 0, _, rows => some rows
  | count + 1, i, rows =>
    match rows[i]? with
    | none => none
    | some r => shift_indices d count (i + 1) (rows.set i { r with index := r.index + d })

/-- The source's `insert_row`.  After the test `pos < 0` the conversion of `pos` to
`size_t` keeps its value, so the second test compares the integers themselves. -/
def insert_row (e : Editor) (pos : Int) (str : List Char) : Option Editor :=
  if pos < 0 ∨ pos > (e.number_of_rows : Int) then some e
  else
    match vec_insert e.rows pos.toNat Row.fresh with
    | none => none
    | some rows1 =>
      match shift_indices 1 (e.number_of_rows + 1 - (pos.toNat + 1)) (pos.toNat + 1) rows1 with
      | none => none
      | some rows2 =>
        match vec_at rows2 pos with
        | none => none
        | some r =>
          match update_row { r with index := pos, characters := str } with
          | none => none
          | some r1 =>
            some { e with rows := vec_put rows2 pos r1, number_of_rows := e.number_of_rows + 1 }

/-- The source's `delete_row`. -/
def delete_row (e : Editor) (pos : Int) : Option Editor :=
  if pos < 0 ∨ pos ≥ (e.number_of_rows : Int) then some e
  else
    match vec_erase e.rows pos.toNat with
    | none => none
    | some rows1 =>
      let n := e.number_of_rows - 1
      match shift_indices (-1) (n - pos.toNat) pos.toNat rows1 with
      | none => none
      | some rows2 => some { e with rows := rows2, number_of_rows := n }

/-- Loop of `rows_to_string`: appends `rows[i].characters` for `count` rows from `i` on. -/
def rows_to_string_loop (rows : List Row) : Nat → Nat → List Char → Option (List Char)
  | 0, _, str => some str
  | count + 1, i, str =>
    match rows[i]? with
    | none => none
    | some r => rows_to_string_loop rows count (i + 1) (str ++ r.characters)

/-- The source's `rows_to_string`. -/
def rows_to_string (e : Editor) : Option (List Char) :=
  rows_to_string_loop e.rows e.number_of_rows 0 []

/-! ## Cursor and editing operations -/

/-- Key code `KEY_DOWN` of `curses.h`. -/
def KEY_DOWN : Int := 258
/-- Key code `KEY_UP` of `curses.h`. -/
def KEY_UP : Int := 259
/-- Key code `KEY_LEFT` of `curses.h`. -/
def KEY_LEFT : Int := 260
/-- Key code `KEY_RIGHT` of `curses.h`. -/
def KEY_RIGHT : Int := 261

/-- The pointer `(cursor_y >= number_of_rows) ? nullptr : &rows[cursor_y]` of `move_cursor`:
`some none` is the null pointer, `none` an access outside the vector. -/
def current_row_ptr (e : Editor) : Option (Option Row) :=
  if toSizeT e.cursor_y ≥ e.number_of_rows then some none
  else
    match vec_at e.rows e.cursor_y with
    | none => none
    | some r => some (some r)

/-- The `switch` of `move_cursor`, `row` being the pointer computed before it. -/
def move_cursor_switch (e : Editor) (row : Option Row) (key : Int) : Option Editor :=
  if key = KEY_LEFT then
    if e.cursor_x ≠ 0 then some { e with cursor_x := e.cursor_x - 1 }
    else if e.cursor_y > 0 then
      match vec_at e.rows (e.cursor_y - 1) with
      | none => none
      | some r => some { e with cursor_y := e.cursor_y - 1, cursor_x := r.printed.length }
    else some e
  else if key = KEY_RIGHT then
    match row with
    | none => some e
    | some r =>
      if toSizeT e.cursor_x < r.characters.length then some { e with cursor_x := e.cursor_x + 1 }
      else if toSizeT e.cursor_x = r.printed.length then
        some { e with cursor_y := e.cursor_y + 1, cursor_x := 0 }
      else some e
  else if key = KEY_UP then
    if e.cursor_y ≠ 0 then some { e with cursor_y := e.cursor_y - 1 } else some e
  else if key = KEY_DOWN then
    if toSizeT e.cursor_y < e.number_of_rows then some { e with cursor_y := e.cursor_y + 1 }
    else some e
  else some e

/-- The source's `move_cursor`. -/
def move_cursor (e : Editor) (key : Int) : Option Editor :=
  match current_row_ptr e with
  | none => none
  | some row =>
    match move_cursor_switch e row key with
    | none => none
    | some e1 =>
      match current_row_ptr e1 with
      | none => none
      | some row1 =>
        let rowlen : Int :=
          match row1 with
          | none => 0
          | some r => r.printed.length
        if e1.cursor_x > rowlen then some { e1 with cursor_x := rowlen } else some e1

/-- The source's `delete_char`.  The merge branch appends with `+=` on `characters` and
calls `delete_row`; it does not call `update_row`. -/
def delete_char (e : Editor) : Option Editor :=
  if e.cursor_x = 0 ∧ e.cursor_y = 0 then some e
  else
    match vec_at e.rows e.cursor_y with
    | none => none
    | some row =>
      if e.cursor_x > 0 then
        match delete_char_in_row row (e.cursor_x - 1) with
        | none => none
        | some row1 => some { e with rows := vec_put e.rows e.cursor_y row1 }
      else if e.cursor_x = 0 then
        match vec_at e.rows (e.cursor_y - 1) with
        | none => none
        | some prev_row =>
          let prev1 := { prev_row with characters := prev_row.characters ++ row.characters }
          delete_row { e with rows := vec_put e.rows (e.cursor_y - 1) prev1 } e.cursor_y
      else some e

/-- The source's `insert_newline`.  The address `&edit.rows[edit.cursor_y]` of an element
inside the vector is never null, so the early `return` is not taken for such a row; with
`cursor_y` outside the vector the access itself is undefined (`none`). -/
def insert_newline (e : Editor) : Option Editor :=
  match vec_at e.rows e.cursor_y with
  | none => none
  | some current_row =>
    let row_len := current_row.characters.length
    if toSizeT e.cursor_x = row_len then
      match insert_row e (e.cursor_y + 1) [] with
      | none => none
      | some e1 => move_cursor e1 KEY_DOWN
    else if e.cursor_x = 0 then
      insert_row e e.cursor_y []
    else
      match str_substr current_row.characters (toSizeT (e.cursor_x + 1)) row_len with
      | none => none
      | some left_over =>
        match str_set current_row.characters (toSizeT e.cursor_x) NUL with
        | none => none
        | some s =>
          let e1 := { e with rows := vec_put e.rows e.cursor_y { current_row with characters := s } }
          match insert_row e1 (e.cursor_y + 1) [] with
          | none => none
          | some e2 =>
            match vec_at e2.rows (e.cursor_y + 1) with
            | none => none
            | some r =>
              match add_string_to_row r left_over with
              | none => none
              | some r1 => some { e2 with rows := vec_put e2.rows (e.cursor_y + 1) r1 }

/-- The statically initialised global `edit`. -/
def edit : Editor :=
  { filename := [], number_of_rows := 0, cursor_x := 0, cursor_y := 0, screen_rows := [], rows := [] }

/-- The source's `init`. -/
def init (e : Editor) : Editor :=
  { e with cursor_x := 0, cursor_y := 0, number_of_rows := 0, filename := [] }

/-- Conversion of a `size_t` to `int` (32 bit, two's complement). -/
def toInt (n : Nat) : Int := ((n : Int) + (2 : Int) ^ 31) % (2 : Int) ^ 32 - (2 : Int) ^ 31

/-- Conversion of an `int` to `char`: the low byte. -/
def toChar (c : Int) : Char := Char.ofNat (c % 256).toNat

/-- Value of an `int` after an arithmetic step on 32 bits, two's complement: the step
`cursor_x++` at `INT_MAX` gives `INT_MIN`. -/
def wrapInt (x : Int) : Int := (x + (2 : Int) ^ 31) % (2 : Int) ^ 32 - (2 : Int) ^ 31

/-- The source's `insert_char`.  The final `edit.cursor_x++` is an `int` increment. -/
def insert_char (e : Editor) (c : Int) : Option Editor :=
  match (if toSizeT e.cursor_y = e.number_of_rows then
      insert_row e (toInt e.number_of_rows) [] else some e) with
  | none => none
  | some e1 =>
    match vec_at e1.rows e1.cursor_y with
    | none => none
    | some row =>
      match insert_char_to_row row e1.cursor_x (toChar c) with
      | none => none
      | some row1 =>
        some { e1 with
          rows := vec_put e1.rows e1.cursor_y row1, cursor_x := wrapInt (e1.cursor_x + 1) }

/-- Key code `KEY_HOME` of `curses.h`. -/
def KEY_HOME : Int := 262
/-- Key code `KEY_SAVE` of `curses.h`. -/
def KEY_SAVE : Int := 377

/-- The source's `process_key`, with the key `c` that `getch()` returned.  The cases are
the newline (10), the tab (9), the code 127, `KEY_HOME`, `KEY_SAVE`, the four arrows, and
the default. -/
def process_key (e : Editor) (c : Int) : Option Editor :=
  if c = 10 then insert_newline e
  else if c = 9 then
    match vec_at e.rows e.cursor_y with
    | none => none
    | some row =>
      match str_insert row.characters (toSizeT e.cursor_x) '\t' with
      | none => none
      | some s => some { e with rows := vec_put e.rows e.cursor_y { row with characters := s } }
  else if c = 127 then
    match delete_char e with
    | none => none
    | some e1 => move_cursor e1 KEY_LEFT
  else if c = KEY_HOME then some { e with cursor_x := 0 }
  else if c = KEY_SAVE then some e
  else if c = KEY_UP ∨ c = KEY_DOWN ∨ c = KEY_LEFT ∨ c = KEY_RIGHT then move_cursor e c
  else insert_char e c

/-- The reading loop of `load_file` over the bytes of the file: `rows` is `edit.rows`,
`current_row` the local row being filled. -/
def load_loop : List Char → List Row → Row → List Row × Row
  | [], rows, current_row => (rows, current_row)
  | c :: cs, rows, current_row =>
    if c = '\n' then
      if current_row.characters ≠ [] then
        load_loop cs (rows ++ [current_row]) { current_row with characters := [] }
      else load_loop cs rows current_row
    else load_loop cs rows { current_row with characters := current_row.characters ++ [c] }

/-- The source's `load_file`.  `file` is the content of the file named `filename`, `none`
when it cannot be opened; `garbage` is the value the uninitialised member
`highlight_open_comment` of the local `Row current_row` happens to hold. -/
def load_file (e : Editor) (filename : List Char) (file : Option (List Char))
    (garbage : Int) : Editor :=
  let e1 := { e with filename := filename }
  if filename = [] then e1
  else
    match file with
    | none => e1
    | some bytes =>
      let current_row : Row :=
        { index := 0, characters := [], printed := [], highlight_open_comment := garbage }
      let res := load_loop bytes [] current_row
      { e1 with rows := if res.2.characters ≠ [] then res.1 ++ [res.2] else res.1 }

/-- Performs a sequence of key presses with `process_key`, one after the other. -/
def run_keys : Editor → List Int → Option Editor
  | e, [] => some e
  | e, c :: cs =>
    match process_key e c with
    | none => none
    | some e1 => run_keys e1 cs

/-- Performs a sequence of calls of `move_cursor`, one after the other. -/
def run_moves : Editor → List Int → Option Editor
  | e, [] => some e
  | e, key :: keys =>
    match move_cursor e key with
    | none => none
    | some e1 => run_moves e1 keys

/-! ## Auxiliary notions used in the statements -/

/-- The row `r` with its index moved by `d`. -/
def Row.shifted (d : Int) (r : Row) : Row := { r with index := r.index + d }

/-- The row `insert_row` builds at position `pos` for the content `str`. -/
def Row.inserted (pos : Int) (str : List Char) : Row :=
  { index := pos, characters := str, printed := tabExpansion str, highlight_open_comment := 0 }

/-- The rows carry the consecutive indices `k`, `k + 1`, ... -/
def IndexedFrom : Int → List Row → Prop
  | _, [] => True
  | k, r :: rs => r.index = k ∧ IndexedFrom (k + 1) rs

/-- The buffer is well formed: the counter agrees with the vector and every row carries
its own position as index. -/
def WellIndexed (e : Editor) : Prop :=
  e.number_of_rows = e.rows.length ∧ IndexedFrom 0 e.rows

/-- A call of `insert_row` or of `delete_row`. -/
inductive RowOp where
  | insert (pos : Int) (content : List Char)
  | delete (pos : Int)
deriving DecidableEq, Repr

/-- Performs one call. -/
def RowOp.apply (e : Editor) : RowOp → Option Editor
  | RowOp.insert pos content => insert_row e pos content
  | RowOp.delete pos => delete_row e pos

/-- Performs a sequence of calls, one after the other. -/
def run_ops : Editor → List RowOp → Option Editor
  | e, [] => some e
  | e, op :: ops =>
    match op.apply e with
    | none => none
    | some e1 => run_ops e1 ops

/-- The raw content and the display form of a row, without its index. -/
def Row.content (r : Row) : List Char × List Char := (r.characters, r.printed)

/-- The buffer fits the machine integers of the source: the row count and the lengths of
the raw and display strings are below `2 ^ 31`. -/
def IntSized (e : Editor) : Prop :=
  (e.number_of_rows : Int) < 2 ^ 31 ∧
  ∀ r ∈ e.rows, (r.characters.length : Int) < 2 ^ 31 ∧ (r.printed.length : Int) < 2 ^ 31

/-- Length of the display form of row `i`; 0 when there is no such row. -/
def displayLength (e : Editor) (i : Int) : Int :=
  match vec_at e.rows i with
  | none => 0
  | some r => r.printed.length

/-- Length of the raw content of row `i`; 0 when there is no such row. -/
def rawLength (e : Editor) (i : Int) : Int :=
  match vec_at e.rows i with
  | none => 0
  | some r => r.characters.length

/-- Effective row length of the clamp, as the specification words it: 0 when the cursor
row equals the row count, the display length of the row otherwise. -/
def effectiveLength (e : Editor) (row : Int) : Int :=
  if row = (e.number_of_rows : Int) then 0 else displayLength e row

/-- The cursor is inside the buffer and inside the display of its row. -/
def CursorInBounds (e : Editor) : Prop :=
  0 ≤ e.cursor_y ∧ e.cursor_y ≤ (e.number_of_rows : Int) ∧
  0 ≤ e.cursor_x ∧ e.cursor_x ≤ effectiveLength e e.cursor_y

/-- Reference cursor transition before the clamp, as the specification words it; the
result is the pair `(row, col)`. -/
def refTransition (e : Editor) (key : Int) : Int × Int :=
  let row := e.cursor_y
  let col := e.cursor_x
  if key = KEY_LEFT then
    if col > 0 then (row, col - 1)
    else if row > 0 then (row - 1, displayLength e (row - 1))
    else (row, col)
  else if key = KEY_RIGHT then
    if row = (e.number_of_rows : Int) then (row, col)
    else if col < rawLength e row then (row, col + 1)
    else if col = displayLength e row then (row + 1, 0)
    else (row, col)
  else if key = KEY_UP then
    if row > 0 then (row - 1, col) else (row, col)
  else if key = KEY_DOWN then
    if row < (e.number_of_rows : Int) then (row + 1, col) else (row, col)
  else (row, col)

/-- Reference move: the transition followed by the clamp `col = min(col, effective length)`. -/
def refMove (e : Editor) (key : Int) : Int × Int :=
  let p := refTransition e key
  (p.1, min p.2 (effectiveLength e p.1))

/-- Reference row contents of a loaded file, as the specification words it: the non-empty
maximal newline-free segments of the bytes, in order. -/
def nonEmptySegments (bytes : List Char) : List (List Char) :=
  (bytes.splitOn '\n').filter (fun s => decide (s ≠ []))

/-! ## Tab expansion -/

theorem str_resize_length (s : List Char) (n : Nat) : (str_resize s n).length = n := by
  simp only [str_resize, List.length_append, List.length_take, List.length_replicate]
  omega

theorem str_resize_append_left (a b : List Char) : str_resize (a ++ b) a.length = a := by
  simp [str_resize]

theorem count_tabs_acc (cs : List Char) (t : Nat) : count_tabs cs t = t + count_tabs cs 0 := by
  induction cs generalizing t with
  | nil => simp [count_tabs]
  | cons c cs ih =>
    simp only [count_tabs]
    rw [ih]
    by_cases h : c = '\t'
    · simp only [h, if_true]
      rw [ih (0 + 1)]
      omega
    · simp only [h, if_false]

theorem str_replace_spaces (out rest : List Char) (n : Nat) (h : n ≤ rest.length) :
    str_replace (out ++ rest) out.length n n ' '
      = some ((out ++ List.replicate n ' ') ++ rest.drop n) := by
  have h1 : ¬ out.length > (out ++ rest).length := by simp
  have h2 : min n ((out ++ rest).length - out.length) = n := by simp [h]
  simp only [str_replace, h1, if_false, h2]
  simp

theorem str_set_next (out rest : List Char) (c d : Char) :
    str_set (out ++ d :: rest) out.length c = some ((out ++ [c]) ++ rest) := by
  have h1 : out.length < (out ++ d :: rest).length := by simp
  simp only [str_set, h1, if_true]
  simp

theorem expand_loop_spec (cs : List Char) :
    ∀ out rest : List Char, cs.length + 3 * count_tabs cs 0 ≤ rest.length →
      ∃ rest1, expand_loop cs (out ++ rest) out.length
        = some ((out ++ expandFrom out.length cs) ++ rest1,
                (out ++ expandFrom out.length cs).length) := by
  induction cs with
  | nil =>
    intro out rest _
    exact ⟨rest, by simp [expand_loop, expandFrom]⟩
  | cons c cs ih =>
    intro out rest hlen
    by_cases h : c = '\t'
    · subst h
      have hc : count_tabs ('\t' :: cs) 0 = 1 + count_tabs cs 0 := by
        simp only [count_tabs, if_true]
        exact count_tabs_acc cs (0 + 1)
      rw [hc] at hlen
      simp only [List.length_cons] at hlen
      have hn : TAB_STOP - out.length % TAB_STOP ≤ rest.length := by
        simp only [TAB_STOP]; omega
      have hrest : cs.length + 3 * count_tabs cs 0
          ≤ (rest.drop (TAB_STOP - out.length % TAB_STOP)).length := by
        simp only [List.length_drop, TAB_STOP]; omega
      obtain ⟨rest1, h1⟩ := ih (out ++ List.replicate (TAB_STOP - out.length % TAB_STOP) ' ')
        (rest.drop (TAB_STOP - out.length % TAB_STOP)) hrest
      refine ⟨rest1, ?_⟩
      simp only [expand_loop, if_true, str_replace_spaces out rest _ hn]
      simp only [List.length_append, List.length_replicate] at h1
      rw [h1]
      simp [expandFrom, TAB_STOP]
      omega
    · have hc : count_tabs (c :: cs) 0 = count_tabs cs 0 := by
        simp only [count_tabs, h, if_false]
      rw [hc] at hlen
      simp only [List.length_cons] at hlen
      cases rest with
      | nil => simp at hlen
      | cons d rest =>
        simp only [List.length_cons] at hlen
        obtain ⟨rest1, h1⟩ := ih (out ++ [c]) rest (by omega)
        refine ⟨rest1, ?_⟩
        simp only [expand_loop, h, if_false, str_set_next]
        simp only [List.length_append, List.length_singleton] at h1
        rw [h1]
        simp [expandFrom, h]
        omega

/-- The function `update_row` always returns, keeps every field but `printed`, and sets
`printed` to the reference tab expansion of `characters`. -/
theorem update_row_eq (row : Row) :
    update_row row = some { row with printed := tabExpansion row.characters } := by
  have hlen : row.characters.length + 3 * count_tabs row.characters 0
      ≤ (str_resize row.printed
          (row.characters.length + count_tabs row.characters 0 * (TAB_STOP - 1))).length := by
    rw [str_resize_length]; simp only [TAB_STOP]; omega
  obtain ⟨rest1, h1⟩ := expand_loop_spec row.characters [] _ hlen
  simp only [List.nil_append, List.length_nil] at h1
  simp only [update_row, h1]
  have := str_resize_append_left (expandFrom 0 row.characters) rest1
  simp only [this, tabExpansion]


/-! ## Closed forms of the row operations -/

theorem insert_char_to_row_eq (row : Row) (pos : Nat) (c : Char)
    (h : pos ≤ row.characters.length) :
    insert_char_to_row row pos c
      = some { row with
          characters := row.characters.take pos ++ c :: row.characters.drop pos,
          printed := tabExpansion (row.characters.take pos ++ c :: row.characters.drop pos) } := by
  have h1 : ¬ ((pos : Int) < 0 ∨ (pos : Int) > (row.characters.length : Int)) := by omega
  have h2 : ¬ pos > row.characters.length := by omega
  simp only [insert_char_to_row, h1, if_false, Int.toNat_ofNat, str_insert, h2, update_row_eq]

theorem delete_char_in_row_eq (row : Row) (pos : Nat) (h : pos < row.characters.length) :
    delete_char_in_row row pos
      = some { row with
          characters := row.characters.take pos ++ row.characters.drop (pos + 1),
          printed := tabExpansion (row.characters.take pos ++ row.characters.drop (pos + 1)) } := by
  have h1 : ¬ ((pos : Int) < 0 ∨ (pos : Int) ≥ (row.characters.length : Int)) := by omega
  have h2 : ¬ pos > row.characters.length := by omega
  simp only [delete_char_in_row, h1, if_false, Int.toNat_ofNat, str_erase, h2, update_row_eq]

theorem add_string_to_row_eq (row : Row) (str : List Char) :
    add_string_to_row row str
      = some { row with
          characters := row.characters ++ List.replicate (str.length + 1) NUL,
          printed := tabExpansion (row.characters ++ List.replicate (str.length + 1) NUL) } := by
  have h0 : str_resize row.characters (row.characters.length + str.length + 1)
      = row.characters ++ NUL :: List.replicate str.length NUL := by
    simp only [str_resize]
    rw [List.take_of_length_le (by omega)]
    have : row.characters.length + str.length + 1 - row.characters.length = str.length + 1 := by
      omega
    rw [this, List.replicate_succ]
  simp only [add_string_to_row, h0, str_set_next, update_row_eq]
  simp [List.replicate_succ]

/-! ## Closed forms of the buffer operations -/

theorem shift_indices_spec (d : Int) (mid : List Row) :
    ∀ pre post : List Row,
      shift_indices d mid.length pre.length (pre ++ mid ++ post)
        = some (pre ++ mid.map (Row.shifted d) ++ post) := by
  induction mid with
  | nil => intro pre post; simp [shift_indices]
  | cons m mid ih =>
    intro pre post
    have hget : (pre ++ m :: mid ++ post)[pre.length]? = some m := by
      rw [List.append_assoc, List.getElem?_append_right (Nat.le_refl _)]
      simp
    have hset : (pre ++ m :: mid ++ post).set pre.length { m with index := m.index + d }
        = (pre ++ [Row.shifted d m]) ++ mid ++ post := by
      simp [List.set_append, Row.shifted]
    simp only [List.length_cons, shift_indices, hget, hset]
    have := ih (pre ++ [Row.shifted d m]) post
    simp only [List.length_append, List.length_singleton] at this
    rw [this]
    simp


theorem vec_at_ofNat (rows : List Row) (i : Nat) : vec_at rows (i : Int) = rows[i]? := by
  have h : ¬ ((i : Int) < 0) := by omega
  simp only [vec_at, h, if_false, Int.toNat_ofNat]

theorem vec_put_ofNat (rows : List Row) (i : Nat) (r : Row) :
    vec_put rows (i : Int) r = rows.set i r := by
  simp only [vec_put, Int.toNat_ofNat]

theorem insert_row_split (e : Editor) (pre post : List Row) (str : List Char)
    (hrows : e.rows = pre ++ post) (hn : e.number_of_rows = e.rows.length) :
    insert_row e (pre.length : Int) str
      = some { e with
          rows := pre ++ Row.inserted pre.length str :: post.map (Row.shifted 1),
          number_of_rows := e.number_of_rows + 1 } := by
  have hlen : e.number_of_rows = pre.length + post.length := by
    rw [hn, hrows, List.length_append]
  have h1 : ¬ ((pre.length : Int) < 0 ∨ (pre.length : Int) > (e.number_of_rows : Int)) := by
    omega
  have h2 : ¬ pre.length > e.rows.length := by rw [← hn]; omega
  have hins : vec_insert e.rows pre.length Row.fresh = some (pre ++ Row.fresh :: post) := by
    simp only [vec_insert, h2, if_false]
    simp [hrows]
  have hcount : e.number_of_rows + 1 - (pre.length + 1) = post.length := by omega
  have hshift : shift_indices 1 post.length (pre.length + 1) (pre ++ Row.fresh :: post)
      = some (pre ++ Row.fresh :: post.map (Row.shifted 1)) := by
    have := shift_indices_spec 1 post (pre ++ [Row.fresh]) []
    simpa using this
  have hget : (pre ++ Row.fresh :: post.map (Row.shifted 1))[pre.length]? = some Row.fresh := by
    rw [List.getElem?_append_right (Nat.le_refl _)]
    simp
  have hset : ∀ r : Row, (pre ++ Row.fresh :: post.map (Row.shifted 1)).set pre.length r
      = pre ++ r :: post.map (Row.shifted 1) := by
    intro r; simp [List.set_append]
  simp only [insert_row, h1, if_false, Int.toNat_ofNat, hins, hcount, hshift, vec_at_ofNat, hget,
    update_row_eq, vec_put_ofNat, hset]
  rfl

theorem delete_row_split (e : Editor) (pre post : List Row) (r : Row)
    (hrows : e.rows = pre ++ r :: post) (hn : e.number_of_rows = e.rows.length) :
    delete_row e (pre.length : Int)
      = some { e with
          rows := pre ++ post.map (Row.shifted (-1)),
          number_of_rows := e.number_of_rows - 1 } := by
  have hlen : e.number_of_rows = pre.length + (post.length + 1) := by
    rw [hn, hrows, List.length_append, List.length_cons]
  have h1 : ¬ ((pre.length : Int) < 0 ∨ (pre.length : Int) ≥ (e.number_of_rows : Int)) := by
    omega
  have h2 : pre.length < e.rows.length := by rw [← hn]; omega
  have hers : vec_erase e.rows pre.length = some (pre ++ post) := by
    simp only [vec_erase, h2, if_true]
    simp [hrows]
  have hcount : e.number_of_rows - 1 - pre.length = post.length := by omega
  have hshift : shift_indices (-1) post.length pre.length (pre ++ post)
      = some (pre ++ post.map (Row.shifted (-1))) := by
    have := shift_indices_spec (-1) post pre []
    simpa using this
  simp only [delete_row, h1, if_false, Int.toNat_ofNat, hers, hcount, hshift]


/-! ## The index invariant -/

theorem indexedFrom_append (a b : List Row) :
    ∀ k : Int, IndexedFrom k (a ++ b) ↔ IndexedFrom k a ∧ IndexedFrom (k + a.length) b := by
  induction a with
  | nil => intro k; simp [IndexedFrom]
  | cons r a ih =>
    intro k
    have e : k + ((r :: a).length : Int) = k + 1 + (a.length : Int) := by
      simp only [List.length_cons]; push_cast; omega
    rw [e]
    show (r.index = k ∧ IndexedFrom (k + 1) (a ++ b)) ↔ _
    rw [ih (k + 1)]
    simp only [IndexedFrom]
    tauto

theorem indexedFrom_shifted (d : Int) (rs : List Row) :
    ∀ k : Int, IndexedFrom k rs → IndexedFrom (k + d) (rs.map (Row.shifted d)) := by
  induction rs with
  | nil => intro k _; simp [IndexedFrom]
  | cons r rs ih =>
    intro k h
    obtain ⟨h1, h2⟩ := h
    simp only [List.map_cons, IndexedFrom]
    refine ⟨by simp [Row.shifted, h1], ?_⟩
    have := ih (k + 1) h2
    have e : k + 1 + d = k + d + 1 := by omega
    rw [e] at this
    exact this

theorem indexedFrom_getElem (rs : List Row) :
    ∀ k : Int, IndexedFrom k rs →
      ∀ (i : Nat) (r : Row), rs[i]? = some r → r.index = k + (i : Int) := by
  induction rs with
  | nil => intro k _ i r h; simp at h
  | cons r0 rs ih =>
    intro k h i r hr
    obtain ⟨h1, h2⟩ := h
    cases i with
    | zero =>
      simp only [List.getElem?_cons_zero, Option.some.injEq] at hr
      subst hr
      simp [h1]
    | succ i =>
      simp only [List.getElem?_cons_succ] at hr
      have := ih (k + 1) h2 i r hr
      rw [this]
      push_cast
      omega

theorem insert_row_wellIndexed (e : Editor) (pos : Int) (str : List Char)
    (h : WellIndexed e) : ∃ e1, insert_row e pos str = some e1 ∧ WellIndexed e1 := by
  obtain ⟨hn, hidx⟩ := h
  by_cases hg : pos < 0 ∨ pos > (e.number_of_rows : Int)
  · exact ⟨e, by simp only [insert_row, hg, if_true], hn, hidx⟩
  · have hp : pos.toNat ≤ e.rows.length := by omega
    have hpos : ((e.rows.take pos.toNat).length : Int) = pos := by
      rw [List.length_take, Nat.min_eq_left hp]; omega
    have hsplit := insert_row_split e (e.rows.take pos.toNat) (e.rows.drop pos.toNat) str
      (List.take_append_drop _ _).symm hn
    rw [hpos] at hsplit
    refine ⟨_, hsplit, ?_, ?_⟩
    · simp only [List.length_append, List.length_cons, List.length_map, List.length_take,
        List.length_drop]
      omega
    · rw [← List.take_append_drop pos.toNat e.rows, indexedFrom_append] at hidx
      obtain ⟨ha, hb⟩ := hidx
      rw [indexedFrom_append]
      refine ⟨ha, ?_, ?_⟩
      · rw [hpos]; simp [Row.inserted]
      · exact indexedFrom_shifted 1 _ _ hb

theorem delete_row_wellIndexed (e : Editor) (pos : Int)
    (h : WellIndexed e) : ∃ e1, delete_row e pos = some e1 ∧ WellIndexed e1 := by
  obtain ⟨hn, hidx⟩ := h
  by_cases hg : pos < 0 ∨ pos ≥ (e.number_of_rows : Int)
  · exact ⟨e, by simp only [delete_row, hg, if_true], hn, hidx⟩
  · have hp : pos.toNat < e.rows.length := by omega
    have hpos : ((e.rows.take pos.toNat).length : Int) = pos := by
      rw [List.length_take, Nat.min_eq_left (Nat.le_of_lt hp)]; omega
    have hrows : e.rows = e.rows.take pos.toNat ++ e.rows[pos.toNat] :: e.rows.drop (pos.toNat + 1) := by
      rw [← List.drop_eq_getElem_cons hp, List.take_append_drop]
    have hsplit := delete_row_split e _ _ _ hrows hn
    rw [hpos] at hsplit
    refine ⟨_, hsplit, ?_, ?_⟩
    · simp only [List.length_append, List.length_map, List.length_take, List.length_drop]
      omega
    · rw [hrows, indexedFrom_append] at hidx
      obtain ⟨ha, _, hb⟩ := hidx
      rw [indexedFrom_append]
      refine ⟨ha, ?_⟩
      have := indexedFrom_shifted (-1) _ _ hb
      have e1 : (0 : Int) + ((e.rows.take pos.toNat).length : Int) + 1 + -1
          = 0 + ((e.rows.take pos.toNat).length : Int) := by omega
      rw [e1] at this
      exact this

theorem run_ops_wellIndexed (ops : List RowOp) :
    ∀ e : Editor, WellIndexed e → ∃ e1, run_ops e ops = some e1 ∧ WellIndexed e1 := by
  induction ops with
  | nil => intro e h; exact ⟨e, rfl, h⟩
  | cons op ops ih =>
    intro e h
    have hstep : ∃ e1, op.apply e = some e1 ∧ WellIndexed e1 := by
      cases op with
      | insert pos content => exact insert_row_wellIndexed e pos content h
      | delete pos => exact delete_row_wellIndexed e pos h
    obtain ⟨e1, h1, hw1⟩ := hstep
    obtain ⟨e2, h2, hw2⟩ := ih e1 hw1
    exact ⟨e2, by simp only [run_ops, h1, h2], hw2⟩

/-- C1: from the empty buffer left by `init`, after each call of any finite sequence of
`insert_row` and `delete_row` calls (any positions, any contents) the calls so far have
returned, the counter equals the number of rows, and `rows[i].index = i` for every row. -/
theorem c1_index_invariant (e0 : Editor) (h0 : e0.rows = []) (ops : List RowOp) (k : Nat) :
    ∃ e, run_ops (init e0) (ops.take k) = some e ∧
      e.number_of_rows = e.rows.length ∧
      ∀ (i : Nat) (r : Row), e.rows[i]? = some r → r.index = (i : Int) := by
  have hinit : WellIndexed (init e0) := by
    simp [WellIndexed, init, h0, IndexedFrom]
  obtain ⟨e, he, hn, hidx⟩ := run_ops_wellIndexed (ops.take k) (init e0) hinit
  refine ⟨e, he, hn, ?_⟩
  intro i r hr
  have := indexedFrom_getElem e.rows 0 hidx i r hr
  simpa using this

/-- C1 at the start-up state and a sequence with out-of-range positions. -/
theorem c1_index_invariant_witness :
    edit.rows = [] ∧
    ∃ e, run_ops (init edit)
        ([RowOp.insert 0 ['a'], RowOp.insert 5 ['x'], RowOp.insert 0 ['b'], RowOp.delete (-1),
          RowOp.delete 0].take 4) = some e ∧
      e.number_of_rows = e.rows.length ∧
      ∀ (i : Nat) (r : Row), e.rows[i]? = some r → r.index = (i : Int) :=
  ⟨rfl, c1_index_invariant edit rfl _ 4⟩

/-! ## Claims on `update_row`, `insert_row`, `delete_row` and the character operations -/

theorem map_content_shifted (d : Int) (rs : List Row) :
    (rs.map (Row.shifted d)).map Row.content = rs.map Row.content := by
  induction rs with
  | nil => rfl
  | cons r rs ih => simp only [List.map_cons, ih]; rfl

/-- C2: whatever `printed` held before, `update_row` returns, keeps `characters` and every
other field, and sets `printed` to the reference tab expansion of `characters` (each tab
emitting between 1 and `TAB_STOP` spaces); a second run changes nothing; the raw row
`a<TAB>b` gives `a`, three spaces, `b`, and two tabs give eight spaces. -/
theorem c2_update_row_tab_expansion (row : Row) :
    update_row row = some { row with printed := tabExpansion row.characters } ∧
    (update_row row).bind update_row = update_row row ∧
    (∀ previous : List Char,
      (update_row { row with printed := previous }).map Row.printed
        = some (tabExpansion row.characters)) ∧
    (∀ col : Nat, 1 ≤ TAB_STOP - col % TAB_STOP ∧ TAB_STOP - col % TAB_STOP ≤ TAB_STOP) ∧
    (update_row { row with characters := ['a', '\t', 'b'] }).map Row.printed
      = some ['a', ' ', ' ', ' ', 'b'] ∧
    (update_row { row with characters := ['\t', '\t'] }).map Row.printed
      = some (List.replicate 8 ' ') := by
  refine ⟨update_row_eq row, ?_, ?_, ?_, ?_, ?_⟩
  · simp only [update_row_eq, Option.some_bind]
  · intro previous
    simp only [update_row_eq, Option.map_some']
  · intro col
    simp only [TAB_STOP]
    omega
  · simp only [update_row_eq, Option.map_some']
    decide
  · simp only [update_row_eq, Option.map_some']
    decide

/-- C3: with `number_of_rows = rows.size()`, `insert_row` with `pos < 0` or
`pos > number_of_rows` returns the state unchanged; otherwise it returns the state whose
rows are the old rows before `pos`, a new row with raw `content` and display the tab
expansion of `content`, then the old rows from `pos` on, raw and display of the old rows
unchanged, with `rows.size()` and `number_of_rows` one larger and nothing else changed. -/
theorem c3_insert_row (e : Editor) (pos : Int) (content : List Char)
    (hn : e.number_of_rows = e.rows.length) :
    (pos < 0 ∨ pos > (e.number_of_rows : Int) → insert_row e pos content = some e) ∧
    (0 ≤ pos ∧ pos ≤ (e.number_of_rows : Int) →
      ∃ e1, insert_row e pos content = some e1 ∧
        e1.rows.map Row.content
          = (e.rows.take pos.toNat).map Row.content
            ++ (content, tabExpansion content) :: (e.rows.drop pos.toNat).map Row.content ∧
        e1.rows.length = e.rows.length + 1 ∧
        e1.number_of_rows = e.number_of_rows + 1 ∧
        e1.cursor_x = e.cursor_x ∧ e1.cursor_y = e.cursor_y ∧
        e1.filename = e.filename ∧ e1.screen_rows = e.screen_rows) := by
  constructor
  · intro hg
    simp only [insert_row, hg, if_true]
  · intro hg
    have hp : pos.toNat ≤ e.rows.length := by omega
    have hpos : ((e.rows.take pos.toNat).length : Int) = pos := by
      rw [List.length_take, Nat.min_eq_left hp]; omega
    have hsplit := insert_row_split e (e.rows.take pos.toNat) (e.rows.drop pos.toNat) content
      (List.take_append_drop _ _).symm hn
    rw [hpos] at hsplit
    refine ⟨_, hsplit, ?_, ?_, rfl, rfl, rfl, rfl, rfl⟩
    · simp only [List.map_append, List.map_cons, map_content_shifted]
      rfl
    · simp only [List.length_append, List.length_cons, List.length_map, List.length_take,
        List.length_drop]
      omega

/-- C3 at a buffer of two rows: a tab row inserted between them, and a call with the
out-of-range position 3. -/
theorem c3_insert_row_witness :
    (2 : Nat) = [Row.inserted 0 ['a'], Row.inserted 1 ['b']].length ∧
    insert_row ⟨[], 2, 0, 0, [], [Row.inserted 0 ['a'], Row.inserted 1 ['b']]⟩ 3 ['\t']
      = some ⟨[], 2, 0, 0, [], [Row.inserted 0 ['a'], Row.inserted 1 ['b']]⟩ ∧
    ∃ e1, insert_row ⟨[], 2, 0, 0, [], [Row.inserted 0 ['a'], Row.inserted 1 ['b']]⟩ 1 ['\t']
        = some e1 ∧
      e1.rows.map Row.content
        = ([Row.inserted 0 ['a'], Row.inserted 1 ['b']].take (1 : Int).toNat).map Row.content
          ++ (['\t'], tabExpansion ['\t'])
            :: ([Row.inserted 0 ['a'], Row.inserted 1 ['b']].drop (1 : Int).toNat).map
                Row.content ∧
      e1.rows.length = [Row.inserted 0 ['a'], Row.inserted 1 ['b']].length + 1 ∧
      e1.number_of_rows = 2 + 1 ∧
      e1.cursor_x = 0 ∧ e1.cursor_y = 0 ∧ e1.filename = [] ∧ e1.screen_rows = [] :=
  ⟨rfl,
    (c3_insert_row ⟨[], 2, 0, 0, [], [Row.inserted 0 ['a'], Row.inserted 1 ['b']]⟩ 3 ['\t']
      rfl).1 (Or.inr (by decide)),
    (c3_insert_row ⟨[], 2, 0, 0, [], [Row.inserted 0 ['a'], Row.inserted 1 ['b']]⟩ 1 ['\t']
      rfl).2 ⟨by decide, by decide⟩⟩

/-- C4: with `number_of_rows = rows.size()`, `delete_row` with `pos < 0` or
`pos >= number_of_rows` returns the state unchanged; otherwise it returns the state whose
rows are the old rows without the one at `pos`, in the same order and with raw and display
unchanged, with `rows.size()` and `number_of_rows` one smaller and nothing else changed. -/
theorem c4_delete_row (e : Editor) (pos : Int) (hn : e.number_of_rows = e.rows.length) :
    (pos < 0 ∨ pos ≥ (e.number_of_rows : Int) → delete_row e pos = some e) ∧
    (0 ≤ pos ∧ pos < (e.number_of_rows : Int) →
      ∃ e1, delete_row e pos = some e1 ∧
        e1.rows.map Row.content
          = (e.rows.take pos.toNat).map Row.content
            ++ (e.rows.drop (pos.toNat + 1)).map Row.content ∧
        e1.rows.length + 1 = e.rows.length ∧
        e1.number_of_rows + 1 = e.number_of_rows ∧
        e1.cursor_x = e.cursor_x ∧ e1.cursor_y = e.cursor_y ∧
        e1.filename = e.filename ∧ e1.screen_rows = e.screen_rows) := by
  constructor
  · intro hg
    simp only [delete_row, hg, if_true]
  · intro hg
    have hp : pos.toNat < e.rows.length := by omega
    have hpos : ((e.rows.take pos.toNat).length : Int) = pos := by
      rw [List.length_take, Nat.min_eq_left (Nat.le_of_lt hp)]; omega
    have hrows : e.rows
        = e.rows.take pos.toNat ++ e.rows[pos.toNat] :: e.rows.drop (pos.toNat + 1) := by
      rw [← List.drop_eq_getElem_cons hp, List.take_append_drop]
    have hsplit := delete_row_split e _ _ _ hrows hn
    rw [hpos] at hsplit
    refine ⟨_, hsplit, ?_, ?_, ?_, rfl, rfl, rfl, rfl⟩
    · simp only [List.map_append, map_content_shifted]
    · simp only [List.length_append, List.length_map, List.length_take, List.length_drop]
      omega
    · show e.number_of_rows - 1 + 1 = e.number_of_rows
      omega

/-- C4 at a buffer of three rows: the middle one deleted, and a call with the out-of-range
position 3. -/
theorem c4_delete_row_witness :
    (3 : Nat) = [Row.inserted 0 ['a'], Row.inserted 1 ['b'], Row.inserted 2 ['c']].length ∧
    delete_row
        ⟨[], 3, 0, 0, [], [Row.inserted 0 ['a'], Row.inserted 1 ['b'], Row.inserted 2 ['c']]⟩ 3
      = some
        ⟨[], 3, 0, 0, [], [Row.inserted 0 ['a'], Row.inserted 1 ['b'], Row.inserted 2 ['c']]⟩ ∧
    ∃ e1, delete_row
        ⟨[], 3, 0, 0, [], [Row.inserted 0 ['a'], Row.inserted 1 ['b'], Row.inserted 2 ['c']]⟩ 1
        = some e1 ∧
      e1.rows.map Row.content
        = ([Row.inserted 0 ['a'], Row.inserted 1 ['b'], Row.inserted 2 ['c']].take
              (1 : Int).toNat).map Row.content
          ++ ([Row.inserted 0 ['a'], Row.inserted 1 ['b'], Row.inserted 2 ['c']].drop
              ((1 : Int).toNat + 1)).map Row.content ∧
      e1.rows.length + 1
        = [Row.inserted 0 ['a'], Row.inserted 1 ['b'], Row.inserted 2 ['c']].length ∧
      e1.number_of_rows + 1 = 3 ∧
      e1.cursor_x = 0 ∧ e1.cursor_y = 0 ∧ e1.filename = [] ∧ e1.screen_rows = [] :=
  ⟨rfl,
    (c4_delete_row
      ⟨[], 3, 0, 0, [], [Row.inserted 0 ['a'], Row.inserted 1 ['b'], Row.inserted 2 ['c']]⟩ 3
      rfl).1 (Or.inr (by decide)),
    (c4_delete_row
      ⟨[], 3, 0, 0, [], [Row.inserted 0 ['a'], Row.inserted 1 ['b'], Row.inserted 2 ['c']]⟩ 1
      rfl).2 ⟨by decide, by decide⟩⟩

/-- C5: for a position `pos` with `0 <= pos <= raw.length`, `insert_char_to_row` at `pos`
followed by `delete_char_in_row` at `pos` both return and give back the row's raw content,
with the display equal to the tab expansion of that content and the index untouched. -/
theorem c5_insert_then_delete_char (row : Row) (c : Char) (pos : Int)
    (h0 : 0 ≤ pos) (h1 : pos ≤ (row.characters.length : Int)) :
    ∃ r1 r2, insert_char_to_row row pos c = some r1 ∧
      delete_char_in_row r1 pos = some r2 ∧
      r2.characters = row.characters ∧
      r2.printed = tabExpansion row.characters ∧
      r2.index = row.index := by
  obtain ⟨p, rfl⟩ := Int.eq_ofNat_of_zero_le h0
  have hp : p ≤ row.characters.length := by omega
  have hlen : (row.characters.take p).length = p := by
    rw [List.length_take, Nat.min_eq_left hp]
  have hback : (row.characters.take p ++ c :: row.characters.drop p).take p
      ++ (row.characters.take p ++ c :: row.characters.drop p).drop (p + 1)
      = row.characters := by
    rw [List.take_append_of_le_length (by omega), List.take_of_length_le (by omega)]
    have : (row.characters.take p ++ c :: row.characters.drop p).drop (p + 1)
        = row.characters.drop p := by
      have h2 : row.characters.take p ++ c :: row.characters.drop p
          = (row.characters.take p ++ [c]) ++ row.characters.drop p := by simp
      rw [h2, List.drop_append_of_le_length (by simp [hlen]),
        List.drop_of_length_le (by simp [hlen])]
      simp
    rw [this, List.take_append_drop]
  have hdel := delete_char_in_row_eq
    { row with
      characters := row.characters.take p ++ c :: row.characters.drop p,
      printed := tabExpansion (row.characters.take p ++ c :: row.characters.drop p) }
    p (by simp only [List.length_append, List.length_cons, hlen]; omega)
  simp only [hback] at hdel
  exact ⟨_, _, insert_char_to_row_eq row p c hp, hdel, rfl, rfl, rfl⟩

/-- C5 on the row `ab` with stale display, a tab inserted and removed at offset 1. -/
theorem c5_insert_then_delete_char_witness :
    (0 : Int) ≤ 1 ∧ (1 : Int) ≤ ((['a', 'b'] : List Char).length : Int) ∧
    ∃ r1 r2, insert_char_to_row ⟨7, ['a', 'b'], ['z'], 0⟩ 1 '\t' = some r1 ∧
      delete_char_in_row r1 1 = some r2 ∧
      r2.characters = ['a', 'b'] ∧
      r2.printed = tabExpansion ['a', 'b'] ∧
      r2.index = 7 :=
  ⟨by decide, by decide,
    c5_insert_then_delete_char ⟨7, ['a', 'b'], ['z'], 0⟩ '\t' 1 (by decide) (by decide)⟩

/-! ## Merging a row into the previous one -/

theorem rows_to_string_loop_spec (rest : List Row) :
    ∀ (pre : List Row) (acc : List Char),
      rows_to_string_loop (pre ++ rest) rest.length pre.length acc
        = some (acc ++ (rest.map Row.characters).flatten) := by
  induction rest with
  | nil => intro pre acc; simp [rows_to_string_loop]
  | cons r rest ih =>
    intro pre acc
    have hget : (pre ++ r :: rest)[pre.length]? = some r := by
      rw [List.getElem?_append_right (Nat.le_refl _)]
      simp
    have := ih (pre ++ [r]) (acc ++ r.characters)
    simp only [List.length_append, List.length_singleton, List.append_assoc,
      List.singleton_append] at this
    simp only [List.length_cons, rows_to_string_loop, hget, this, List.map_cons,
      List.flatten_cons, List.append_assoc]

theorem rows_to_string_eq (e : Editor) (hn : e.number_of_rows = e.rows.length) :
    rows_to_string e = some (e.rows.map Row.characters).flatten := by
  have := rows_to_string_loop_spec e.rows [] []
  simp only [List.nil_append, List.length_nil] at this
  simp only [rows_to_string, hn, this]

theorem map_characters_shifted (d : Int) (rs : List Row) :
    (rs.map (Row.shifted d)).map Row.characters = rs.map Row.characters := by
  induction rs with
  | nil => rfl
  | cons r rs ih => simp only [List.map_cons, ih]; rfl

theorem map_printed_shifted (d : Int) (rs : List Row) :
    (rs.map (Row.shifted d)).map Row.printed = rs.map Row.printed := by
  induction rs with
  | nil => rfl
  | cons r rs ih => simp only [List.map_cons, ih]; rfl

/-- Closed form of `delete_char` with the cursor at column 0 of a row that has a
predecessor: the raw content goes to the end of the predecessor's, whose display is left
as it was, and the row is deleted. -/
theorem delete_char_merge (e : Editor) (pre post : List Row) (upper lower : Row)
    (hrows : e.rows = pre ++ upper :: lower :: post) (hn : e.number_of_rows = e.rows.length)
    (hx : e.cursor_x = 0) (hy : e.cursor_y = ((pre.length + 1 : Nat) : Int)) :
    delete_char e
      = some { e with
          rows := pre ++ { upper with characters := upper.characters ++ lower.characters }
                    :: post.map (Row.shifted (-1)),
          number_of_rows := e.number_of_rows - 1 } := by
  have h1 : ¬ (e.cursor_x = 0 ∧ e.cursor_y = 0) := by
    rw [hy]; intro h; have := h.2; omega
  have h2 : ¬ e.cursor_x > 0 := by omega
  have hlower : vec_at e.rows e.cursor_y = some lower := by
    rw [hy, vec_at_ofNat, hrows, List.getElem?_append_right (Nat.le_succ _)]
    simp
  have hym : e.cursor_y - 1 = (pre.length : Int) := by rw [hy]; push_cast; omega
  have hupper : vec_at e.rows (e.cursor_y - 1) = some upper := by
    rw [hym, vec_at_ofNat, hrows, List.getElem?_append_right (Nat.le_refl _)]
    simp
  have hput : ∀ r : Row, vec_put e.rows (e.cursor_y - 1) r
      = (pre ++ [r]) ++ lower :: post := by
    intro r
    rw [hym, vec_put_ofNat, hrows]
    simp [List.set_append]
  have hy2 : ∀ r : Row, (((pre ++ [r]).length : Nat) : Int) = e.cursor_y := by
    intro r; rw [hy]; simp
  have hdr := delete_row_split
    { e with rows := (pre ++ [{ upper with characters := upper.characters ++ lower.characters }])
        ++ lower :: post }
    (pre ++ [{ upper with characters := upper.characters ++ lower.characters }]) post lower rfl
    (by simp [hn, hrows])
  rw [hy2] at hdr
  unfold delete_char
  rw [if_neg h1]
  simp only [hlower]
  rw [if_neg h2, if_pos hx]
  simp only [hupper, hput]
  rw [hdr]
  simp

/-- C9: with `number_of_rows = rows.size()` and the cursor at `(y, 0)`, `0 < y < number_of_rows`,
`delete_char` returns a state in which row `y - 1` has the raw content of old row `y - 1`
followed by that of old row `y`, old row `y` is gone, the rows before `y - 1` and after `y`
keep their raw content and order, the row count is one smaller, and `rows_to_string`
returns the same text as before. -/
theorem c9_delete_char_merges_rows (e : Editor) (y : Nat)
    (hn : e.number_of_rows = e.rows.length) (hx : e.cursor_x = 0) (hy : e.cursor_y = (y : Int))
    (hy0 : 0 < y) (hy1 : y < e.number_of_rows) :
    ∃ e1 upper lower, e.rows[y - 1]? = some upper ∧ e.rows[y]? = some lower ∧
      delete_char e = some e1 ∧
      e1.rows.map Row.characters
        = (e.rows.take (y - 1)).map Row.characters
          ++ (upper.characters ++ lower.characters)
            :: (e.rows.drop (y + 1)).map Row.characters ∧
      e1.rows.length + 1 = e.rows.length ∧
      e1.number_of_rows + 1 = e.number_of_rows ∧
      rows_to_string e1 = rows_to_string e ∧
      rows_to_string e = some (e.rows.map Row.characters).flatten := by
  have hlt : y < e.rows.length := by omega
  have hlt1 : y - 1 < e.rows.length := by omega
  have hd1 : e.rows.drop (y - 1) = e.rows[y - 1] :: e.rows.drop y := by
    have := List.drop_eq_getElem_cons hlt1
    rw [this]
    have e2 : y - 1 + 1 = y := by omega
    rw [e2]
  have hrows : e.rows = e.rows.take (y - 1) ++ e.rows[y - 1] :: e.rows[y] :: e.rows.drop (y + 1) := by
    rw [← List.drop_eq_getElem_cons hlt, ← hd1, List.take_append_drop]
  have hpre : (e.rows.take (y - 1)).length = y - 1 := by
    rw [List.length_take, Nat.min_eq_left (by omega)]
  have hy2 : e.cursor_y = (((e.rows.take (y - 1)).length + 1 : Nat) : Int) := by
    rw [hy, hpre]
    have e2 : y - 1 + 1 = y := by omega
    rw [e2]
  have hmerge := delete_char_merge e _ _ _ _ hrows hn hx hy2
  have hn1 : ({ e with
      rows := e.rows.take (y - 1)
        ++ { e.rows[y - 1] with characters := e.rows[y - 1].characters ++ e.rows[y].characters }
          :: (e.rows.drop (y + 1)).map (Row.shifted (-1)),
      number_of_rows := e.number_of_rows - 1 } : Editor).number_of_rows
      = ({ e with
      rows := e.rows.take (y - 1)
        ++ { e.rows[y - 1] with characters := e.rows[y - 1].characters ++ e.rows[y].characters }
          :: (e.rows.drop (y + 1)).map (Row.shifted (-1)),
      number_of_rows := e.number_of_rows - 1 } : Editor).rows.length := by
    simp only [List.length_append, List.length_cons, List.length_map, List.length_take,
      List.length_drop]
    omega
  refine ⟨_, e.rows[y - 1], e.rows[y], List.getElem?_eq_getElem hlt1,
    List.getElem?_eq_getElem hlt, hmerge, ?_, ?_, ?_, ?_, rows_to_string_eq e hn⟩
  · simp only [List.map_append, List.map_cons, map_characters_shifted]
  · simp only [List.length_append, List.length_cons, List.length_map, List.length_take,
      List.length_drop]
    omega
  · show e.number_of_rows - 1 + 1 = e.number_of_rows
    omega
  · rw [rows_to_string_eq _ hn1, rows_to_string_eq e hn]
    simp only [List.map_append, List.map_cons, map_characters_shifted, List.flatten_append,
      List.flatten_cons]
    conv_rhs => rw [hrows]
    simp only [List.map_append, List.map_cons, List.flatten_append, List.flatten_cons,
      List.append_assoc]

/-- C9 on the rows `ab`, `cd`, `ef` with the cursor at the start of the second row. -/
theorem c9_delete_char_merges_rows_witness :
    ∃ e1 upper lower,
      [Row.inserted 0 ['a', 'b'], Row.inserted 1 ['c', 'd'], Row.inserted 2 ['e', 'f']][1 - 1]?
        = some upper ∧
      [Row.inserted 0 ['a', 'b'], Row.inserted 1 ['c', 'd'], Row.inserted 2 ['e', 'f']][1]?
        = some lower ∧
      delete_char ⟨[], 3, 0, 1, [],
          [Row.inserted 0 ['a', 'b'], Row.inserted 1 ['c', 'd'], Row.inserted 2 ['e', 'f']]⟩
        = some e1 ∧
      e1.rows.map Row.characters
        = ([Row.inserted 0 ['a', 'b'], Row.inserted 1 ['c', 'd'],
              Row.inserted 2 ['e', 'f']].take (1 - 1)).map Row.characters
          ++ (upper.characters ++ lower.characters)
            :: ([Row.inserted 0 ['a', 'b'], Row.inserted 1 ['c', 'd'],
                  Row.inserted 2 ['e', 'f']].drop (1 + 1)).map Row.characters ∧
      e1.rows.length + 1
        = [Row.inserted 0 ['a', 'b'], Row.inserted 1 ['c', 'd'], Row.inserted 2 ['e', 'f']].length ∧
      e1.number_of_rows + 1 = 3 ∧
      rows_to_string e1
        = rows_to_string ⟨[], 3, 0, 1, [],
            [Row.inserted 0 ['a', 'b'], Row.inserted 1 ['c', 'd'], Row.inserted 2 ['e', 'f']]⟩ ∧
      rows_to_string ⟨[], 3, 0, 1, [],
          [Row.inserted 0 ['a', 'b'], Row.inserted 1 ['c', 'd'], Row.inserted 2 ['e', 'f']]⟩
        = some ([Row.inserted 0 ['a', 'b'], Row.inserted 1 ['c', 'd'],
            Row.inserted 2 ['e', 'f']].map Row.characters).flatten :=
  c9_delete_char_merges_rows
    ⟨[], 3, 0, 1, [],
      [Row.inserted 0 ['a', 'b'], Row.inserted 1 ['c', 'd'], Row.inserted 2 ['e', 'f']]⟩
    1 rfl rfl rfl (by decide) (by decide)

/-! ## Evaluations of the row split and of the merge -/

/-- C8: evaluation of `add_string_to_row` on the row `a` and the string `b`.  The call
returns the raw content `a`, NUL, NUL (length 3) and its expansion as display: the bytes of
the string never reach the row, so the raw content is not `ab`. -/
theorem c8_add_string_to_row_eval :
    add_string_to_row ⟨0, ['a'], ['a'], 0⟩ ['b']
      = some ⟨0, ['a', NUL, NUL], ['a', NUL, NUL], 0⟩ ∧
    ['a', NUL, NUL] ≠ ['a'] ++ ['b'] ∧
    tabExpansion ['a', NUL, NUL] = ['a', NUL, NUL] := by
  decide

/-- C7: evaluation of `insert_newline` on the single row `abcd` with the cursor at column 2.
The row keeps its length 4 with the byte at offset 2 overwritten by NUL, the new row holds
two NUL bytes instead of `cd`, and the cursor stays at `(0, 2)`; only the row count is as
claimed. -/
theorem c7_insert_newline_eval :
    insert_newline ⟨[], 1, 2, 0, [], [⟨0, ['a', 'b', 'c', 'd'], ['a', 'b', 'c', 'd'], 0⟩]⟩
      = some ⟨[], 2, 2, 0, [],
          [⟨0, ['a', 'b', NUL, 'd'], ['a', 'b', 'c', 'd'], 0⟩, ⟨1, [NUL, NUL], [NUL, NUL], 0⟩]⟩ := by
  decide

/-- C6: evaluation of `insert_newline` at column 2 of the single row `abcd` followed by
`delete_char` with the cursor at `(1, 0)`.  The merged row is `ab`, NUL, `d`, NUL, NUL
(length 6), not `abcd`. -/
theorem c6_split_then_merge_eval :
    (insert_newline ⟨[], 1, 2, 0, [], [⟨0, ['a', 'b', 'c', 'd'], ['a', 'b', 'c', 'd'], 0⟩]⟩).bind
        (fun e1 => delete_char { e1 with cursor_x := 0, cursor_y := 1 })
      = some ⟨[], 1, 0, 1, [],
          [⟨0, ['a', 'b', NUL, 'd', NUL, NUL], ['a', 'b', 'c', 'd'], 0⟩]⟩ ∧
    ['a', 'b', NUL, 'd', NUL, NUL] ≠ ['a', 'b', 'c', 'd'] := by
  decide

/-- C10: evaluation of `delete_char` on the rows `a` and `b`, each with its display equal
to the expansion of its raw content, with the cursor at `(1, 0)`.  The merged row has raw
content `ab` but still the display `a`, which is not the expansion of `ab`. -/
theorem c10_merge_keeps_stale_display_eval :
    tabExpansion ['a'] = ['a'] ∧ tabExpansion ['b'] = ['b'] ∧
    delete_char ⟨[], 2, 0, 1, [], [⟨0, ['a'], ['a'], 0⟩, ⟨1, ['b'], ['b'], 0⟩]⟩
      = some ⟨[], 1, 0, 1, [], [⟨0, ['a', 'b'], ['a'], 0⟩]⟩ ∧
    tabExpansion ['a', 'b'] = ['a', 'b'] ∧
    ['a'] ≠ tabExpansion ['a', 'b'] := by
  decide

/-! ## Cursor movement -/

theorem toSizeT_eq (x : Int) (h0 : 0 ≤ x) (h1 : x < 2 ^ 31) : toSizeT x = x.toNat := by
  have h2 : x % (2 : Int) ^ 64 = x := Int.emod_eq_of_lt h0 (by omega)
  simp only [toSizeT, h2]

theorem vec_at_nonneg (rows : List Row) (i : Int) (h : 0 ≤ i) : vec_at rows i = rows[i.toNat]? := by
  have h1 : ¬ i < 0 := by omega
  simp only [vec_at, h1, if_false]

theorem current_row_ptr_eq (e : Editor) (hn : e.number_of_rows = e.rows.length)
    (hy0 : 0 ≤ e.cursor_y) (hy2 : e.cursor_y < 2 ^ 31) :
    current_row_ptr e = some (e.rows[e.cursor_y.toNat]?) := by
  unfold current_row_ptr
  rw [toSizeT_eq _ hy0 hy2]
  by_cases h : e.cursor_y.toNat ≥ e.number_of_rows
  · rw [if_pos h]
    have : e.rows.length ≤ e.cursor_y.toNat := by omega
    rw [List.getElem?_eq_none this]
  · rw [if_neg h, vec_at_nonneg _ _ hy0]
    have : e.cursor_y.toNat < e.rows.length := by omega
    rw [List.getElem?_eq_getElem this]

theorem effectiveLength_eq (e : Editor) (y : Int) (hn : e.number_of_rows = e.rows.length)
    (hy0 : 0 ≤ y) :
    (match e.rows[y.toNat]? with
      | none => (0 : Int)
      | some r => (r.printed.length : Int)) = effectiveLength e y := by
  unfold effectiveLength displayLength
  by_cases h : y = (e.number_of_rows : Int)
  · rw [if_pos h]
    have : e.rows.length ≤ y.toNat := by omega
    rw [List.getElem?_eq_none this]
  · rw [if_neg h, vec_at_nonneg _ _ hy0]

theorem move_cursor_switch_ref (e : Editor) (key : Int)
    (hn : e.number_of_rows = e.rows.length)
    (hy0 : 0 ≤ e.cursor_y) (hy1 : e.cursor_y ≤ (e.number_of_rows : Int))
    (hx0 : 0 ≤ e.cursor_x) (hx1 : e.cursor_x < 2 ^ 31) (hy2 : e.cursor_y < 2 ^ 31) :
    move_cursor_switch e (e.rows[e.cursor_y.toNat]?) key
      = some { e with cursor_y := (refTransition e key).1, cursor_x := (refTransition e key).2 } := by
  unfold move_cursor_switch refTransition
  by_cases hL : key = KEY_LEFT
  · simp only [hL, if_true]
    by_cases h1 : e.cursor_x = 0
    · have h1a : ¬ e.cursor_x ≠ 0 := by simp [h1]
      have h1b : ¬ e.cursor_x > 0 := by omega
      simp only [h1a, h1b, if_false]
      by_cases h2 : e.cursor_y > 0
      · have hlt : (e.cursor_y - 1).toNat < e.rows.length := by omega
        simp only [h2, if_true, displayLength, vec_at_nonneg e.rows (e.cursor_y - 1) (by omega),
          List.getElem?_eq_getElem hlt]
      · simp only [h2, if_false]
    · have h1b : e.cursor_x > 0 := by omega
      simp only [ne_eq, h1, not_false_eq_true, h1b, if_true]
  · simp only [hL, if_false]
    by_cases hR : key = KEY_RIGHT
    · simp only [hR, if_true]
      by_cases h1 : e.cursor_y = (e.number_of_rows : Int)
      · have : e.rows.length ≤ e.cursor_y.toNat := by omega
        rw [if_pos h1, List.getElem?_eq_none this]
      · have hlt : e.cursor_y.toNat < e.rows.length := by omega
        rw [if_neg h1]
        simp only [List.getElem?_eq_getElem hlt, toSizeT_eq _ hx0 hx1, rawLength,
          displayLength, vec_at_nonneg e.rows e.cursor_y hy0]
        by_cases h2 : e.cursor_x.toNat < (e.rows[e.cursor_y.toNat]).characters.length
        · have h2a : e.cursor_x < ((e.rows[e.cursor_y.toNat]).characters.length : Int) := by omega
          rw [if_pos h2, if_pos h2a]
        · have h2a : ¬ e.cursor_x < ((e.rows[e.cursor_y.toNat]).characters.length : Int) := by
            omega
          rw [if_neg h2, if_neg h2a]
          by_cases h3 : e.cursor_x.toNat = (e.rows[e.cursor_y.toNat]).printed.length
          · have h3a : e.cursor_x = ((e.rows[e.cursor_y.toNat]).printed.length : Int) := by omega
            rw [if_pos h3, if_pos h3a]
          · have h3a : ¬ e.cursor_x = ((e.rows[e.cursor_y.toNat]).printed.length : Int) := by
              omega
            rw [if_neg h3, if_neg h3a]
    · simp only [hR, if_false]
      by_cases hU : key = KEY_UP
      · simp only [hU, if_true]
        by_cases h1 : e.cursor_y = 0
        · have h1a : ¬ e.cursor_y ≠ 0 := by simp [h1]
          have h1b : ¬ e.cursor_y > 0 := by omega
          simp only [h1a, h1b, if_false]
        · have h1b : e.cursor_y > 0 := by omega
          simp only [ne_eq, h1, not_false_eq_true, h1b, if_true]
      · simp only [hU, if_false]
        by_cases hD : key = KEY_DOWN
        · simp only [hD, if_true, toSizeT_eq _ hy0 hy2]
          by_cases h1 : e.cursor_y.toNat < e.number_of_rows
          · have h1a : e.cursor_y < (e.number_of_rows : Int) := by omega
            simp only [h1, h1a, if_true]
          · have h1a : ¬ e.cursor_y < (e.number_of_rows : Int) := by omega
            simp only [h1, h1a, if_false]
        · simp only [hD, if_false]

theorem displayLength_nonneg (e : Editor) (i : Int) : 0 ≤ displayLength e i := by
  unfold displayLength
  cases vec_at e.rows i with
  | none => exact Int.le_refl 0
  | some r => exact Int.ofNat_nonneg _

theorem effectiveLength_nonneg (e : Editor) (i : Int) : 0 ≤ effectiveLength e i := by
  unfold effectiveLength
  by_cases h : i = (e.number_of_rows : Int)
  · rw [if_pos h]
  · rw [if_neg h]; exact displayLength_nonneg e i

theorem refTransition_bounds (e : Editor) (key : Int)
    (hy0 : 0 ≤ e.cursor_y) (hy1 : e.cursor_y ≤ (e.number_of_rows : Int))
    (hx0 : 0 ≤ e.cursor_x) :
    0 ≤ (refTransition e key).1 ∧ (refTransition e key).1 ≤ (e.number_of_rows : Int) ∧
      0 ≤ (refTransition e key).2 := by
  have hd := displayLength_nonneg e (e.cursor_y - 1)
  unfold refTransition
  simp only
  split_ifs <;> simp only <;> omega

theorem move_cursor_ref (e : Editor) (key : Int)
    (hn : e.number_of_rows = e.rows.length) (hsz : (e.number_of_rows : Int) < 2 ^ 31)
    (hy0 : 0 ≤ e.cursor_y) (hy1 : e.cursor_y ≤ (e.number_of_rows : Int))
    (hx0 : 0 ≤ e.cursor_x) (hx1 : e.cursor_x < 2 ^ 31) :
    move_cursor e key
      = some { e with cursor_y := (refMove e key).1, cursor_x := (refMove e key).2 } := by
  have hy2 : e.cursor_y < 2 ^ 31 := by omega
  obtain ⟨hb0, hb1, hb2⟩ := refTransition_bounds e key hy0 hy1 hx0
  have hptr := current_row_ptr_eq
    { e with cursor_y := (refTransition e key).1, cursor_x := (refTransition e key).2 }
    hn hb0 (by show (refTransition e key).1 < 2 ^ 31; omega)
  have heff := effectiveLength_eq e (refTransition e key).1 hn hb0
  unfold move_cursor
  rw [current_row_ptr_eq e hn hy0 hy2]
  simp only [move_cursor_switch_ref e key hn hy0 hy1 hx0 hx1 hy2, hptr, heff]
  unfold refMove
  by_cases h : (refTransition e key).2 > effectiveLength e (refTransition e key).1
  · rw [if_pos h]
    have : min (refTransition e key).2 (effectiveLength e (refTransition e key).1)
        = effectiveLength e (refTransition e key).1 := by omega
    simp only [this]
  · rw [if_neg h]
    have : min (refTransition e key).2 (effectiveLength e (refTransition e key).1)
        = (refTransition e key).2 := by omega
    simp only [this]

theorem effectiveLength_lt (e : Editor) (i : Int) (hsz : IntSized e) :
    effectiveLength e i < 2 ^ 31 := by
  unfold effectiveLength displayLength
  by_cases h : i = (e.number_of_rows : Int)
  · rw [if_pos h]; decide
  · rw [if_neg h]
    unfold vec_at
    by_cases h0 : i < 0
    · rw [if_pos h0]; decide
    · rw [if_neg h0]
      cases hr : e.rows[i.toNat]? with
      | none => decide
      | some r => exact (hsz.2 r (List.getElem?_mem hr)).2

theorem move_cursor_bounds (e : Editor) (key : Int)
    (hn : e.number_of_rows = e.rows.length) (hsz : (e.number_of_rows : Int) < 2 ^ 31)
    (hy0 : 0 ≤ e.cursor_y) (hy1 : e.cursor_y ≤ (e.number_of_rows : Int))
    (hx0 : 0 ≤ e.cursor_x) (hx1 : e.cursor_x < 2 ^ 31) :
    ∃ e1, move_cursor e key = some e1 ∧ e1.rows = e.rows ∧
      e1.number_of_rows = e.number_of_rows ∧ CursorInBounds e1 := by
  obtain ⟨hb0, hb1, hb2⟩ := refTransition_bounds e key hy0 hy1 hx0
  have heff := effectiveLength_nonneg e (refTransition e key).1
  refine ⟨_, move_cursor_ref e key hn hsz hy0 hy1 hx0 hx1, rfl, rfl, ?_⟩
  show 0 ≤ (refMove e key).1 ∧ (refMove e key).1 ≤ (e.number_of_rows : Int) ∧
    0 ≤ (refMove e key).2 ∧ (refMove e key).2 ≤ effectiveLength e (refMove e key).1
  simp only [refMove]
  omega

theorem run_moves_bounds (keys : List Int) :
    ∀ (e : Editor) (key : Int), e.number_of_rows = e.rows.length → IntSized e →
      0 ≤ e.cursor_y → e.cursor_y ≤ (e.number_of_rows : Int) →
      0 ≤ e.cursor_x → e.cursor_x < 2 ^ 31 →
      ∃ e1, run_moves e (key :: keys) = some e1 ∧ e1.rows = e.rows ∧
        e1.number_of_rows = e.number_of_rows ∧ CursorInBounds e1 := by
  induction keys with
  | nil =>
    intro e key hn hsz hy0 hy1 hx0 hx1
    obtain ⟨e1, h1, hr, hc, hb⟩ := move_cursor_bounds e key hn hsz.1 hy0 hy1 hx0 hx1
    exact ⟨e1, by simp only [run_moves, h1], hr, hc, hb⟩
  | cons k keys ih =>
    intro e key hn hsz hy0 hy1 hx0 hx1
    obtain ⟨e1, h1, hr, hc, hb⟩ := move_cursor_bounds e key hn hsz.1 hy0 hy1 hx0 hx1
    have hsz1 : IntSized e1 := by
      unfold IntSized
      rw [hr, hc]
      exact hsz
    have hlt := effectiveLength_lt e1 e1.cursor_y hsz1
    obtain ⟨e2, h2, hr2, hc2, hb2⟩ := ih e1 k (by rw [hc, hr]; exact hn) hsz1 hb.1 hb.2.1
      hb.2.2.1 (by have := hb.2.2.2; omega)
    refine ⟨e2, ?_, hr2.trans hr, hc2.trans hc, hb2⟩
    rw [run_moves, h1]
    exact h2

/-- C12: with `number_of_rows = rows.size()`, `0 <= cursor_y <= number_of_rows` and
`cursor_x >= 0` (an `int`, in a buffer whose sizes fit an `int`), `move_cursor` returns for
every key code, leaves the rows alone, and leaves `0 <= cursor_y <= number_of_rows` and
`0 <= cursor_x <= L`, `L` being 0 past the last row and the display length of the cursor
row otherwise.  When row 0 has display length 5, no positive number of presses of RIGHT
ends on row 0 with a column above 5. -/
theorem c12_move_cursor_in_bounds (e : Editor)
    (hn : e.number_of_rows = e.rows.length) (hsz : IntSized e)
    (hy0 : 0 ≤ e.cursor_y) (hy1 : e.cursor_y ≤ (e.number_of_rows : Int))
    (hx0 : 0 ≤ e.cursor_x) (hx1 : e.cursor_x < 2 ^ 31) :
    (∀ key : Int, ∃ e1, move_cursor e key = some e1 ∧ e1.rows = e.rows ∧
        e1.number_of_rows = e.number_of_rows ∧
        0 ≤ e1.cursor_y ∧ e1.cursor_y ≤ (e1.number_of_rows : Int) ∧
        0 ≤ e1.cursor_x ∧ e1.cursor_x ≤ effectiveLength e1 e1.cursor_y) ∧
    (∀ (r : Row) (k : Nat), e.rows[0]? = some r → r.printed.length = 5 →
      ∃ e1, run_moves e (List.replicate (k + 1) KEY_RIGHT) = some e1 ∧
        ¬ (e1.cursor_y = 0 ∧ e1.cursor_x > 5)) := by
  constructor
  · intro key
    obtain ⟨e1, h1, hr, hc, hb⟩ := move_cursor_bounds e key hn hsz.1 hy0 hy1 hx0 hx1
    exact ⟨e1, h1, hr, hc, hb⟩
  · intro r k hr0 hlen
    obtain ⟨e1, h1, hr, hc, hb⟩ :=
      run_moves_bounds (List.replicate k KEY_RIGHT) e KEY_RIGHT hn hsz hy0 hy1 hx0 hx1
    refine ⟨e1, h1, ?_⟩
    rintro ⟨hy, hx⟩
    have hle := hb.2.2.2
    rw [hy] at hle
    unfold effectiveLength displayLength at hle
    rw [vec_at_nonneg _ _ (Int.le_refl 0), hr] at hle
    simp only [Int.toNat_zero, hr0] at hle
    split_ifs at hle <;> omega

/-- C12 on the single row `abcde` with the cursor at column 9 of row 0. -/
theorem c12_move_cursor_in_bounds_witness :
    (∀ key : Int, ∃ e1,
        move_cursor ⟨[], 1, 9, 0, [], [Row.inserted 0 ['a', 'b', 'c', 'd', 'e']]⟩ key = some e1 ∧
        e1.rows = [Row.inserted 0 ['a', 'b', 'c', 'd', 'e']] ∧
        e1.number_of_rows = 1 ∧
        0 ≤ e1.cursor_y ∧ e1.cursor_y ≤ (e1.number_of_rows : Int) ∧
        0 ≤ e1.cursor_x ∧ e1.cursor_x ≤ effectiveLength e1 e1.cursor_y) ∧
    (∀ k : Nat, ∃ e1,
        run_moves ⟨[], 1, 9, 0, [], [Row.inserted 0 ['a', 'b', 'c', 'd', 'e']]⟩
          (List.replicate (k + 1) KEY_RIGHT) = some e1 ∧
        ¬ (e1.cursor_y = 0 ∧ e1.cursor_x > 5)) :=
  have h := c12_move_cursor_in_bounds
    ⟨[], 1, 9, 0, [], [Row.inserted 0 ['a', 'b', 'c', 'd', 'e']]⟩ rfl
    (by simp [IntSized, Row.inserted, tabExpansion, expandFrom]) (by decide) (by decide)
    (by decide) (by decide)
  ⟨h.1, fun k => h.2 (Row.inserted 0 ['a', 'b', 'c', 'd', 'e']) k rfl rfl⟩

/-- C13: with `number_of_rows = rows.size()`, `0 <= cursor_y <= number_of_rows` and
`cursor_x >= 0` (an `int`, the row count fitting an `int`), `move_cursor` returns the state
whose cursor is the reference transition for the key followed by the clamp
`col = min(col, effective length)`, and in which nothing else, the rows included, has
changed. -/
theorem c13_move_cursor_is_reference (e : Editor) (key : Int)
    (hn : e.number_of_rows = e.rows.length) (hsz : (e.number_of_rows : Int) < 2 ^ 31)
    (hy0 : 0 ≤ e.cursor_y) (hy1 : e.cursor_y ≤ (e.number_of_rows : Int))
    (hx0 : 0 ≤ e.cursor_x) (hx1 : e.cursor_x < 2 ^ 31) :
    ∃ e1, move_cursor e key = some e1 ∧
      (e1.cursor_y, e1.cursor_x) = refMove e key ∧
      e1.rows = e.rows ∧ e1.number_of_rows = e.number_of_rows ∧
      e1.filename = e.filename ∧ e1.screen_rows = e.screen_rows :=
  ⟨_, move_cursor_ref e key hn hsz hy0 hy1 hx0 hx1, rfl, rfl, rfl, rfl, rfl⟩

/-- C13 on the rows `ab` and `c`, the cursor at the end of row 0 and the key RIGHT: the
cursor wraps to `(1, 0)`. -/
theorem c13_move_cursor_is_reference_witness :
    refMove ⟨[], 2, 2, 0, [], [Row.inserted 0 ['a', 'b'], Row.inserted 1 ['c']]⟩ KEY_RIGHT
      = (1, 0) ∧
    ∃ e1, move_cursor ⟨[], 2, 2, 0, [], [Row.inserted 0 ['a', 'b'], Row.inserted 1 ['c']]⟩
        KEY_RIGHT = some e1 ∧
      (e1.cursor_y, e1.cursor_x)
        = refMove ⟨[], 2, 2, 0, [], [Row.inserted 0 ['a', 'b'], Row.inserted 1 ['c']]⟩
            KEY_RIGHT ∧
      e1.rows = [Row.inserted 0 ['a', 'b'], Row.inserted 1 ['c']] ∧ e1.number_of_rows = 2 ∧
      e1.filename = [] ∧ e1.screen_rows = [] :=
  ⟨by decide,
    c13_move_cursor_is_reference
      ⟨[], 2, 2, 0, [], [Row.inserted 0 ['a', 'b'], Row.inserted 1 ['c']]⟩ KEY_RIGHT rfl
      (by decide) (by decide) (by decide) (by decide) (by decide)⟩

/-! ## Typing a character -/

theorem toInt_eq (n : Nat) (h : (n : Int) < 2 ^ 31) : toInt n = (n : Int) := by
  unfold toInt
  omega

theorem insert_char_to_row_clamped (row : Row) (x : Int) (c : Char) (hx0 : 0 ≤ x) :
    insert_char_to_row row x c
      = some { row with
          characters := row.characters.take (min x.toNat row.characters.length)
            ++ c :: row.characters.drop (min x.toNat row.characters.length),
          printed := tabExpansion (row.characters.take (min x.toNat row.characters.length)
            ++ c :: row.characters.drop (min x.toNat row.characters.length)) } := by
  have hp : min x.toNat row.characters.length ≤ row.characters.length := by omega
  rw [← insert_char_to_row_eq row _ c hp]
  unfold insert_char_to_row
  by_cases h : x > (row.characters.length : Int)
  · have h1 : x < 0 ∨ x > (row.characters.length : Int) := Or.inr h
    have h2 : ¬ (((min x.toNat row.characters.length : Nat) : Int) < 0 ∨
        ((min x.toNat row.characters.length : Nat) : Int) > (row.characters.length : Int)) := by
      omega
    have h3 : ((min x.toNat row.characters.length : Nat) : Int) = (row.characters.length : Int) := by
      omega
    simp only [h1, if_true, h3, ite_self]
  · have h1 : ¬ (x < 0 ∨ x > (row.characters.length : Int)) := by omega
    have h2 : ¬ (((min x.toNat row.characters.length : Nat) : Int) < 0 ∨
        ((min x.toNat row.characters.length : Nat) : Int) > (row.characters.length : Int)) := by
      omega
    have h3 : ((min x.toNat row.characters.length : Nat) : Int) = x := by omega
    simp only [h1, h2, if_false, h3]

/-- The state `insert_char` works on after its first statement: a fresh empty row is
appended when the cursor row equals the row count. -/
theorem insert_char_first_step (e : Editor)
    (hn : e.number_of_rows = e.rows.length) (hsz : (e.number_of_rows : Int) < 2 ^ 31)
    (hy0 : 0 ≤ e.cursor_y) (hy1 : e.cursor_y ≤ (e.number_of_rows : Int)) :
    (if toSizeT e.cursor_y = e.number_of_rows then
        insert_row e (toInt e.number_of_rows) [] else some e)
      = some { e with
          rows := if e.cursor_y = (e.number_of_rows : Int)
            then e.rows ++ [Row.inserted e.number_of_rows []] else e.rows,
          number_of_rows := if e.cursor_y = (e.number_of_rows : Int)
            then e.number_of_rows + 1 else e.number_of_rows } := by
  rw [toSizeT_eq _ hy0 (by omega), toInt_eq _ hsz]
  by_cases h : e.cursor_y = (e.number_of_rows : Int)
  · have h1 : e.cursor_y.toNat = e.number_of_rows := by omega
    rw [if_pos h1, if_pos h, if_pos h]
    have := insert_row_split e e.rows [] [] (by simp) hn
    rw [← hn] at this
    simpa using this
  · have h1 : ¬ e.cursor_y.toNat = e.number_of_rows := by omega
    rw [if_neg h1, if_neg h, if_neg h]

theorem wrapInt_eq (x : Int) (h0 : -(2 ^ 31) ≤ x) (h1 : x < 2 ^ 31) : wrapInt x = x := by
  unfold wrapInt
  omega

theorem wrapInt_succ_le (x : Int) (h0 : 0 ≤ x) : wrapInt (x + 1) ≤ x + 1 := by
  unfold wrapInt
  omega

theorem insert_char_eq (e : Editor) (c : Int) (row : Row)
    (hn : e.number_of_rows = e.rows.length) (hsz : (e.number_of_rows : Int) < 2 ^ 31)
    (hy0 : 0 ≤ e.cursor_y) (hy1 : e.cursor_y ≤ (e.number_of_rows : Int))
    (hx0 : 0 ≤ e.cursor_x)
    (hrow : (if e.cursor_y = (e.number_of_rows : Int)
      then e.rows ++ [Row.inserted e.number_of_rows []] else e.rows)[e.cursor_y.toNat]?
        = some row) :
    insert_char e c
      = some { e with
          rows := (if e.cursor_y = (e.number_of_rows : Int)
              then e.rows ++ [Row.inserted e.number_of_rows []] else e.rows).set e.cursor_y.toNat
            { row with
              characters := row.characters.take (min e.cursor_x.toNat row.characters.length)
                ++ toChar c :: row.characters.drop (min e.cursor_x.toNat row.characters.length),
              printed := tabExpansion
                (row.characters.take (min e.cursor_x.toNat row.characters.length)
                  ++ toChar c
                    :: row.characters.drop (min e.cursor_x.toNat row.characters.length)) },
          number_of_rows := if e.cursor_y = (e.number_of_rows : Int)
            then e.number_of_rows + 1 else e.number_of_rows,
          cursor_x := wrapInt (e.cursor_x + 1) } := by
  unfold insert_char
  rw [insert_char_first_step e hn hsz hy0 hy1]
  simp only [vec_at_nonneg _ _ hy0, hrow, insert_char_to_row_clamped _ _ _ hx0, vec_put]

theorem insert_char_row_exists (e : Editor)
    (hn : e.number_of_rows = e.rows.length)
    (hy0 : 0 ≤ e.cursor_y) (hy1 : e.cursor_y ≤ (e.number_of_rows : Int)) :
    ∃ row, (if e.cursor_y = (e.number_of_rows : Int)
      then e.rows ++ [Row.inserted e.number_of_rows []] else e.rows)[e.cursor_y.toNat]?
        = some row ∧
      (e.cursor_y = (e.number_of_rows : Int) → row = Row.inserted e.number_of_rows []) ∧
      (e.cursor_y ≠ (e.number_of_rows : Int) → e.rows[e.cursor_y.toNat]? = some row) := by
  by_cases h : e.cursor_y = (e.number_of_rows : Int)
  · refine ⟨Row.inserted e.number_of_rows [], ?_, fun _ => rfl, fun h2 => absurd h h2⟩
    rw [if_pos h]
    have h1 : e.cursor_y.toNat = e.rows.length := by omega
    rw [h1, List.getElem?_append_right (Nat.le_refl _)]
    simp
  · have hlt : e.cursor_y.toNat < e.rows.length := by omega
    refine ⟨e.rows[e.cursor_y.toNat], ?_, fun h2 => absurd h2 h, fun _ =>
      List.getElem?_eq_getElem hlt⟩
    rw [if_neg h]
    exact List.getElem?_eq_getElem hlt

/-- C14, as amended: with `number_of_rows = rows.size()` (fitting an `int`), `0 <= cursor_y <=
number_of_rows` and `0 <= cursor_x < INT_MAX`, `insert_char` returns.  The buffer it edits
is the old one, with a fresh empty row appended when `cursor_y = number_of_rows` (row count
plus one, unchanged otherwise); in it the row at `cursor_y` gets the character at offset
`cursor_x` of its raw content, at the end when `cursor_x` exceeds the raw length, and its
display set to the tab expansion of the new raw content; no other row changes, `cursor_x`
grows by one and `cursor_y` stays. -/
theorem c14_insert_char (e : Editor) (c : Int)
    (hn : e.number_of_rows = e.rows.length) (hsz : (e.number_of_rows : Int) < 2 ^ 31)
    (hy0 : 0 ≤ e.cursor_y) (hy1 : e.cursor_y ≤ (e.number_of_rows : Int))
    (hx0 : 0 ≤ e.cursor_x) (hx1 : e.cursor_x < 2 ^ 31 - 1) :
    ∃ row e1,
      (if e.cursor_y = (e.number_of_rows : Int)
        then e.rows ++ [Row.inserted e.number_of_rows []] else e.rows)[e.cursor_y.toNat]?
          = some row ∧
      (e.cursor_y = (e.number_of_rows : Int) → row = Row.inserted e.number_of_rows []) ∧
      (e.cursor_y ≠ (e.number_of_rows : Int) → e.rows[e.cursor_y.toNat]? = some row) ∧
      insert_char e c = some e1 ∧
      e1.rows
        = (if e.cursor_y = (e.number_of_rows : Int)
            then e.rows ++ [Row.inserted e.number_of_rows []] else e.rows).set e.cursor_y.toNat
          { row with
            characters := row.characters.take (min e.cursor_x.toNat row.characters.length)
              ++ toChar c :: row.characters.drop (min e.cursor_x.toNat row.characters.length),
            printed := tabExpansion
              (row.characters.take (min e.cursor_x.toNat row.characters.length)
                ++ toChar c
                  :: row.characters.drop (min e.cursor_x.toNat row.characters.length)) } ∧
      e1.number_of_rows
        = (if e.cursor_y = (e.number_of_rows : Int)
            then e.number_of_rows + 1 else e.number_of_rows) ∧
      e1.rows.length = e1.number_of_rows ∧
      e1.cursor_x = e.cursor_x + 1 ∧ e1.cursor_y = e.cursor_y ∧
      e1.filename = e.filename ∧ e1.screen_rows = e.screen_rows := by
  obtain ⟨row, hrow, hnew, hold⟩ := insert_char_row_exists e hn hy0 hy1
  have heq := insert_char_eq e c row hn hsz hy0 hy1 hx0 hrow
  rw [wrapInt_eq (e.cursor_x + 1) (by omega) (by omega)] at heq
  refine ⟨row, _, hrow, hnew, hold, heq, rfl, rfl, ?_, rfl, rfl, rfl, rfl⟩
  simp only [List.length_set]
  split_ifs <;> simp [hn]

/-- C14 on the empty start-up buffer and on a one-row buffer with the cursor column past
the raw length. -/
theorem c14_insert_char_witness :
    (∃ e1, insert_char (init edit) 97 = some e1 ∧
      e1.rows = [Row.inserted 0 ['a']] ∧ e1.number_of_rows = 1 ∧
      e1.cursor_x = 1 ∧ e1.cursor_y = 0) ∧
    ∃ row e1,
      [Row.inserted 0 ['\t']][(0 : Int).toNat]? = some row ∧
      insert_char ⟨[], 1, 3, 0, [], [Row.inserted 0 ['\t']]⟩ 98 = some e1 ∧
      e1.rows = [Row.inserted 0 ['\t', 'b']] ∧
      e1.number_of_rows = 1 ∧ e1.cursor_x = 3 + 1 ∧ e1.cursor_y = 0 := by
  obtain ⟨_, e1, _, _, _, h1, h2, h3, _, h5, h6, _, _⟩ :=
    c14_insert_char (init edit) 97 rfl (by decide) (by decide) (by decide) (by decide)
      (by decide)
  obtain ⟨row, e2, g0, _, _, g1, g2, g3, _, g5, g6, _, _⟩ :=
    c14_insert_char ⟨[], 1, 3, 0, [], [Row.inserted 0 ['\t']]⟩ 98 rfl (by decide) (by decide)
      (by decide) (by decide) (by decide)
  refine ⟨⟨e1, h1, ?_, h3, h5, h6⟩, row, e2, g0, g1, ?_, g3, g5, g6⟩
  · have : insert_char (init edit) 97 = some ⟨[], 1, 1, 0, [], [Row.inserted 0 ['a']]⟩ := by
      decide
    rw [this] at h1
    rw [← Option.some.inj h1]
  · have : insert_char ⟨[], 1, 3, 0, [], [Row.inserted 0 ['\t']]⟩ 98
        = some ⟨[], 1, 4, 0, [], [Row.inserted 0 ['\t', 'b']]⟩ := by
      decide
    rw [this] at g1
    rw [← Option.some.inj g1]

/-- C14 as stated fails on the single row `a` with the cursor at `(0, INT_MAX)`, a state
with `number_of_rows = rows.size()`, `0 <= cursor_y <= number_of_rows` and `cursor_x >= 0`:
`insert_char` appends the character, and the `int` increment of `cursor_x` leaves
`INT_MIN = -2147483648`, not `cursor_x + 1`. -/
theorem c14_insert_char_counterexample :
    (1 : Nat) = [Row.inserted 0 ['a']].length ∧
    (0 : Int) ≤ 0 ∧ (0 : Int) ≤ ((1 : Nat) : Int) ∧ (0 : Int) ≤ 2147483647 ∧
    insert_char ⟨[], 1, 2147483647, 0, [], [Row.inserted 0 ['a']]⟩ 98
      = some ⟨[], 1, -2147483648, 0, [], [Row.inserted 0 ['a', 'b']]⟩ ∧
    ¬ ∃ e1, insert_char ⟨[], 1, 2147483647, 0, [], [Row.inserted 0 ['a']]⟩ 98 = some e1 ∧
        e1.cursor_x = 2147483647 + 1 := by
  have h : insert_char ⟨[], 1, 2147483647, 0, [], [Row.inserted 0 ['a']]⟩ 98
      = some ⟨[], 1, -2147483648, 0, [], [Row.inserted 0 ['a', 'b']]⟩ := by decide
  refine ⟨rfl, by decide, by decide, by decide, h, ?_⟩
  rintro ⟨e1, h1, h2⟩
  rw [h] at h1
  rw [← Option.some.inj h1] at h2
  revert h2
  decide

theorem expandFrom_length_ge (s : List Char) :
    ∀ col : Nat, s.length ≤ (expandFrom col s).length := by
  induction s with
  | nil => intro col; simp [expandFrom]
  | cons c s ih =>
    intro col
    by_cases h : c = '\t'
    · have := ih (col + (4 - col % 4))
      simp only [expandFrom, h, if_true, List.length_append, List.length_replicate,
        List.length_cons]
      omega
    · have := ih (col + 1)
      simp only [expandFrom, h, if_false, List.length_cons]
      omega

theorem expandFrom_append (a b : List Char) :
    ∀ col : Nat, expandFrom col (a ++ b)
      = expandFrom col a ++ expandFrom (col + (expandFrom col a).length) b := by
  induction a with
  | nil => intro col; simp [expandFrom]
  | cons c a ih =>
    intro col
    have e1 : expandFrom col (c :: (a ++ b))
        = if c = '\t' then
            List.replicate (4 - col % 4) ' ' ++ expandFrom (col + (4 - col % 4)) (a ++ b)
          else c :: expandFrom (col + 1) (a ++ b) := rfl
    have e2 : expandFrom col (c :: a)
        = if c = '\t' then
            List.replicate (4 - col % 4) ' ' ++ expandFrom (col + (4 - col % 4)) a
          else c :: expandFrom (col + 1) a := rfl
    rw [List.cons_append, e1, e2]
    by_cases h : c = '\t'
    · rw [if_pos h, if_pos h, ih, List.length_append, List.length_replicate, List.append_assoc,
        Nat.add_assoc]
    · rw [if_neg h, if_neg h, ih, List.length_cons, List.cons_append]
      have : col + 1 + (expandFrom (col + 1) a).length
          = col + ((expandFrom (col + 1) a).length + 1) := by omega
      rw [this]

/-- After a character is put into a raw row at the offset `min x raw.length`, the column
`x + 1` lies inside the new display whenever `x` lay inside the old one. -/
theorem insert_keeps_column (s : List Char) (c : Char) (x : Nat)
    (hx : x ≤ (tabExpansion s).length) :
    x + 1 ≤ (tabExpansion (s.take (min x s.length) ++ c :: s.drop (min x s.length))).length := by
  by_cases h : x ≤ s.length
  · have := expandFrom_length_ge (s.take (min x s.length) ++ c :: s.drop (min x s.length)) 0
    simp only [List.length_append, List.length_cons, List.length_take, List.length_drop] at this
    unfold tabExpansion
    omega
  · have hm : min x s.length = s.length := by omega
    have hone := expandFrom_length_ge [c] (0 + (expandFrom 0 s).length)
    rw [hm, List.take_length, List.drop_length]
    unfold tabExpansion at hx ⊢
    rw [expandFrom_append, List.length_append]
    simp only [List.length_singleton] at hone
    omega

/-- C20: with `number_of_rows = rows.size()` (fitting an `int`), every display equal to the
tab expansion of its raw content, `0 <= cursor_y <= number_of_rows` and
`0 <= cursor_x <= L`, `insert_char` returns for every character code, the tab included; the
new state has `number_of_rows = rows.size()`, again every display equal to the expansion of
its raw content, and the cursor on a row whose display is at least `cursor_x` long. -/
theorem c20_insert_char_keeps_cursor_in_display (e : Editor) (c : Int)
    (hn : e.number_of_rows = e.rows.length) (hsz : (e.number_of_rows : Int) < 2 ^ 31)
    (hdisp : ∀ r ∈ e.rows, r.printed = tabExpansion r.characters)
    (hy0 : 0 ≤ e.cursor_y) (hy1 : e.cursor_y ≤ (e.number_of_rows : Int))
    (hx0 : 0 ≤ e.cursor_x) (hx1 : e.cursor_x ≤ effectiveLength e e.cursor_y) :
    ∃ e1 row1, insert_char e c = some e1 ∧
      e1.number_of_rows = e1.rows.length ∧
      (∀ r ∈ e1.rows, r.printed = tabExpansion r.characters) ∧
      e1.rows[e1.cursor_y.toNat]? = some row1 ∧
      e1.cursor_x ≤ (row1.printed.length : Int) := by
  obtain ⟨row, hrow, hnew, hold⟩ := insert_char_row_exists e hn hy0 hy1
  have hlen : (if e.cursor_y = (e.number_of_rows : Int)
      then e.rows ++ [Row.inserted e.number_of_rows []] else e.rows).length
      = if e.cursor_y = (e.number_of_rows : Int)
        then e.number_of_rows + 1 else e.number_of_rows := by
    split_ifs <;> simp [hn]
  have hylt : e.cursor_y.toNat < (if e.cursor_y = (e.number_of_rows : Int)
      then e.rows ++ [Row.inserted e.number_of_rows []] else e.rows).length := by
    rw [hlen]; split_ifs <;> omega
  have hbase : ∀ r ∈ (if e.cursor_y = (e.number_of_rows : Int)
      then e.rows ++ [Row.inserted e.number_of_rows []] else e.rows),
      r.printed = tabExpansion r.characters := by
    intro r hr
    split_ifs at hr
    · rcases List.mem_append.1 hr with h | h
      · exact hdisp r h
      · rw [List.mem_singleton.1 h]; rfl
    · exact hdisp r hr
  have hxrow : e.cursor_x.toNat ≤ (tabExpansion row.characters).length := by
    by_cases h : e.cursor_y = (e.number_of_rows : Int)
    · rw [effectiveLength, if_pos h] at hx1
      omega
    · have hr := hold h
      rw [effectiveLength, if_neg h, displayLength, vec_at_nonneg _ _ hy0, hr] at hx1
      rw [← hdisp row (List.getElem?_mem hr)]
      simp only at hx1
      omega
  have hcol := insert_keeps_column row.characters (toChar c) e.cursor_x.toNat hxrow
  refine ⟨_, _, insert_char_eq e c row hn hsz hy0 hy1 hx0 hrow, ?_, ?_,
    List.getElem?_set_self hylt, ?_⟩
  · simp only [List.length_set, hlen]
  · intro r hr
    rcases List.mem_or_eq_of_mem_set hr with h | h
    · exact hbase r h
    · rw [h]
  · show wrapInt (e.cursor_x + 1) ≤ _
    have hw := wrapInt_succ_le e.cursor_x hx0
    simp only
    omega

/-- C20 on the row `a<TAB>` (display of length 4) with the cursor at column 4 and a tab
typed. -/
theorem c20_insert_char_keeps_cursor_in_display_witness :
    (∀ r ∈ [Row.inserted 0 ['a', '\t']], r.printed = tabExpansion r.characters) ∧
    (4 : Int) ≤ effectiveLength ⟨[], 1, 4, 0, [], [Row.inserted 0 ['a', '\t']]⟩ 0 ∧
    ∃ e1 row1, insert_char ⟨[], 1, 4, 0, [], [Row.inserted 0 ['a', '\t']]⟩ 9 = some e1 ∧
      e1.number_of_rows = e1.rows.length ∧
      (∀ r ∈ e1.rows, r.printed = tabExpansion r.characters) ∧
      e1.rows[e1.cursor_y.toNat]? = some row1 ∧
      e1.cursor_x ≤ (row1.printed.length : Int) :=
  ⟨by decide, by decide,
    c20_insert_char_keeps_cursor_in_display ⟨[], 1, 4, 0, [], [Row.inserted 0 ['a', '\t']]⟩ 9
      rfl (by decide) (by decide) (by decide) (by decide) (by decide) (by decide)⟩

/-! ## Backspace -/

theorem set_of_getElem? (rows : List Row) (i : Nat) (r : Row) (h : rows[i]? = some r) :
    rows.set i r = rows := by
  induction rows generalizing i with
  | nil => rfl
  | cons a rows ih =>
    cases i with
    | zero =>
      simp only [List.getElem?_cons_zero, Option.some.injEq] at h
      rw [List.set_cons_zero, h]
    | succ i =>
      simp only [List.getElem?_cons_succ] at h
      rw [List.set_cons_succ, ih i h]

/-- C16: on a buffer with `number_of_rows = rows.size() >= 1` and the cursor at `(0, 0)`,
`delete_char` returns the state it was given, and so does the whole handler of the key 127
(`delete_char` followed by `move_cursor(KEY_LEFT)`): rows, row count and cursor are as
before. -/
theorem c16_backspace_at_origin (e : Editor)
    (hn : e.number_of_rows = e.rows.length) (h1 : 1 ≤ e.number_of_rows)
    (hx : e.cursor_x = 0) (hy : e.cursor_y = 0) :
    delete_char e = some e ∧
    (delete_char e).bind (fun e1 => move_cursor e1 KEY_LEFT) = some e ∧
    process_key e 127 = some e := by
  have hdel : delete_char e = some e := by
    unfold delete_char
    rw [if_pos ⟨hx, hy⟩]
  have hlt : 0 < e.rows.length := by omega
  have hs : toSizeT e.cursor_y = 0 := by rw [hy]; decide
  have hptr : current_row_ptr e = some (some e.rows[0]) := by
    unfold current_row_ptr
    have hge : ¬ toSizeT e.cursor_y ≥ e.number_of_rows := by omega
    rw [if_neg hge, hy, vec_at_nonneg _ _ (Int.le_refl 0)]
    simp only [Int.toNat_zero, List.getElem?_eq_getElem hlt]
  have hmove : move_cursor e KEY_LEFT = some e := by
    unfold move_cursor
    have hsw : move_cursor_switch e (some e.rows[0]) KEY_LEFT = some e := by
      unfold move_cursor_switch
      have h2 : ¬ e.cursor_x ≠ 0 := by simp [hx]
      have h3 : ¬ e.cursor_y > 0 := by omega
      simp only [if_true, h2, h3, if_false]
    have hcl : ¬ e.cursor_x > ((e.rows[0]).printed.length : Int) := by omega
    simp only [hptr, hsw, hcl, if_false]
  refine ⟨hdel, ?_, ?_⟩
  · rw [hdel, Option.some_bind, hmove]
  · have h127 : process_key e 127 = (match delete_char e with
        | none => none
        | some e1 => move_cursor e1 KEY_LEFT) := by
      unfold process_key
      rfl
    rw [h127, hdel]
    exact hmove

/-- C16 on the rows `ab` and `c` with the cursor at the origin. -/
theorem c16_backspace_at_origin_witness :
    delete_char ⟨[], 2, 0, 0, [], [Row.inserted 0 ['a', 'b'], Row.inserted 1 ['c']]⟩
      = some ⟨[], 2, 0, 0, [], [Row.inserted 0 ['a', 'b'], Row.inserted 1 ['c']]⟩ ∧
    (delete_char ⟨[], 2, 0, 0, [], [Row.inserted 0 ['a', 'b'], Row.inserted 1 ['c']]⟩).bind
        (fun e1 => move_cursor e1 KEY_LEFT)
      = some ⟨[], 2, 0, 0, [], [Row.inserted 0 ['a', 'b'], Row.inserted 1 ['c']]⟩ ∧
    process_key ⟨[], 2, 0, 0, [], [Row.inserted 0 ['a', 'b'], Row.inserted 1 ['c']]⟩ 127
      = some ⟨[], 2, 0, 0, [], [Row.inserted 0 ['a', 'b'], Row.inserted 1 ['c']]⟩ :=
  c16_backspace_at_origin ⟨[], 2, 0, 0, [], [Row.inserted 0 ['a', 'b'], Row.inserted 1 ['c']]⟩
    rfl (by decide) rfl rfl

theorem process_key_backspace (e : Editor) :
    process_key e 127 = (delete_char e).bind (fun e1 => move_cursor e1 KEY_LEFT) := by
  unfold process_key
  cases h : delete_char e <;> simp [h]

theorem delete_char_in_line (e : Editor) (row : Row)
    (hy0 : 0 ≤ e.cursor_y) (hrow : e.rows[e.cursor_y.toNat]? = some row)
    (hx0 : 0 < e.cursor_x) :
    delete_char e
      = (delete_char_in_row row (e.cursor_x - 1)).map
          (fun row1 => { e with rows := e.rows.set e.cursor_y.toNat row1 }) := by
  unfold delete_char
  have h1 : ¬ (e.cursor_x = 0 ∧ e.cursor_y = 0) := by omega
  have h2 : e.cursor_x > 0 := hx0
  rw [if_neg h1, vec_at_nonneg _ _ hy0, hrow]
  simp only [h2, if_true, vec_put]
  cases delete_char_in_row row (e.cursor_x - 1) <;> rfl

theorem refMove_left (e : Editor) (hx0 : 0 < e.cursor_x)
    (hle : e.cursor_x - 1 ≤ effectiveLength e e.cursor_y) :
    refMove e KEY_LEFT = (e.cursor_y, e.cursor_x - 1) := by
  unfold refMove refTransition
  have h : e.cursor_x > 0 := hx0
  simp only [if_true, h]
  rw [Int.min_eq_left hle]

theorem effectiveLength_of_row (e : Editor) (row : Row)
    (hn : e.number_of_rows = e.rows.length) (hy0 : 0 ≤ e.cursor_y)
    (hrow : e.rows[e.cursor_y.toNat]? = some row) :
    effectiveLength e e.cursor_y = (row.printed.length : Int) ∧
      e.cursor_y < (e.number_of_rows : Int) := by
  have hlt : e.cursor_y.toNat < e.rows.length := by
    rcases Nat.lt_or_ge e.cursor_y.toNat e.rows.length with h | h
    · exact h
    · rw [List.getElem?_eq_none h] at hrow; cases hrow
  have hne : ¬ e.cursor_y = (e.number_of_rows : Int) := by omega
  refine ⟨?_, by omega⟩
  unfold effectiveLength displayLength
  rw [if_neg hne, vec_at_nonneg _ _ hy0, hrow]

/-- C15, as amended: with `number_of_rows = rows.size()` (fitting an `int`), the cursor on an
existing row `y` and `0 < col <= display.length`, the handler of the key 127 returns.  When
`col <= raw.length` it removes exactly the raw character at offset `col - 1` of row `y`
(raw length minus one, display recomputed), leaves the row count and the other rows alone
and puts the cursor at `(y, col - 1)`.  When `raw.length < col` it removes nothing: the state
is unchanged except for the cursor, which goes to `(y, col - 1)`. -/
theorem c15_backspace_in_row (e : Editor) (row : Row)
    (hn : e.number_of_rows = e.rows.length) (hsz : (e.number_of_rows : Int) < 2 ^ 31)
    (hy0 : 0 ≤ e.cursor_y) (hrow : e.rows[e.cursor_y.toNat]? = some row)
    (hx0 : 0 < e.cursor_x) (hx1 : e.cursor_x ≤ (row.printed.length : Int))
    (hx2 : e.cursor_x < 2 ^ 31) :
    (e.cursor_x ≤ (row.characters.length : Int) →
      ∃ e1, process_key e 127 = some e1 ∧
        e1.rows = e.rows.set e.cursor_y.toNat
          { row with
            characters := row.characters.take (e.cursor_x - 1).toNat
              ++ row.characters.drop ((e.cursor_x - 1).toNat + 1),
            printed := tabExpansion (row.characters.take (e.cursor_x - 1).toNat
              ++ row.characters.drop ((e.cursor_x - 1).toNat + 1)) } ∧
        (row.characters.take (e.cursor_x - 1).toNat
          ++ row.characters.drop ((e.cursor_x - 1).toNat + 1)).length + 1
            = row.characters.length ∧
        e1.number_of_rows = e.number_of_rows ∧
        e1.cursor_y = e.cursor_y ∧ e1.cursor_x = e.cursor_x - 1) ∧
    ((row.characters.length : Int) < e.cursor_x →
      process_key e 127 = some { e with cursor_x := e.cursor_x - 1 }) := by
  obtain ⟨heff, hylt⟩ := effectiveLength_of_row e row hn hy0 hrow
  have hyn : e.cursor_y.toNat < e.rows.length := by omega
  constructor
  · intro hraw
    have hp : (e.cursor_x - 1).toNat < row.characters.length := by omega
    have hcast : (((e.cursor_x - 1).toNat : Nat) : Int) = e.cursor_x - 1 := by omega
    have hlen : (row.characters.take (e.cursor_x - 1).toNat
        ++ row.characters.drop ((e.cursor_x - 1).toNat + 1)).length + 1
        = row.characters.length := by
      simp only [List.length_append, List.length_take, List.length_drop]
      omega
    have hexp := expandFrom_length_ge (row.characters.take (e.cursor_x - 1).toNat
        ++ row.characters.drop ((e.cursor_x - 1).toNat + 1)) 0
    obtain ⟨row1, hrow1⟩ : ∃ row1 : Row, row1 = { row with
        characters := row.characters.take (e.cursor_x - 1).toNat
          ++ row.characters.drop ((e.cursor_x - 1).toNat + 1),
        printed := tabExpansion (row.characters.take (e.cursor_x - 1).toNat
          ++ row.characters.drop ((e.cursor_x - 1).toNat + 1)) } := ⟨_, rfl⟩
    have hdel := delete_char_in_row_eq row (e.cursor_x - 1).toNat hp
    rw [hcast, ← hrow1] at hdel
    have hpl : e.cursor_x - 1 ≤ (row1.printed.length : Int) := by
      rw [hrow1]
      show e.cursor_x - 1 ≤ ((tabExpansion _).length : Int)
      unfold tabExpansion
      omega
    have hn1 : ({ e with rows := e.rows.set e.cursor_y.toNat row1 } : Editor).number_of_rows
        = ({ e with rows := e.rows.set e.cursor_y.toNat row1 } : Editor).rows.length := by
      simp only [List.length_set]
      exact hn
    have hmove := move_cursor_ref { e with rows := e.rows.set e.cursor_y.toNat row1 } KEY_LEFT
      hn1 hsz hy0 (Int.le_of_lt hylt) (Int.le_of_lt hx0) hx2
    have heff1 := effectiveLength_of_row { e with rows := e.rows.set e.cursor_y.toNat row1 }
      row1 hn1 hy0 (List.getElem?_set_self hyn)
    have href := refMove_left { e with rows := e.rows.set e.cursor_y.toNat row1 } hx0
      (by rw [heff1.1]; exact hpl)
    rw [href] at hmove
    rw [← hrow1]
    refine ⟨{ e with rows := e.rows.set e.cursor_y.toNat row1, cursor_x := e.cursor_x - 1 },
      ?_, rfl, hlen, rfl, rfl, rfl⟩
    rw [process_key_backspace, delete_char_in_line e row hy0 hrow hx0, hdel]
    exact hmove
  · intro hraw
    have hnoop : delete_char_in_row row (e.cursor_x - 1) = some row := by
      unfold delete_char_in_row
      have : e.cursor_x - 1 < 0 ∨ e.cursor_x - 1 ≥ (row.characters.length : Int) := by omega
      simp only [this, if_true]
    have hmove := move_cursor_ref e KEY_LEFT hn hsz hy0 (by omega) (by omega) hx2
    rw [refMove_left e hx0 (by rw [heff]; omega)] at hmove
    rw [process_key_backspace, delete_char_in_line e row hy0 hrow hx0, hnoop]
    simp only [Option.map_some', Option.some_bind, set_of_getElem? _ _ _ hrow]
    exact hmove

/-- C15 on the row `a<TAB>` (raw length 2, display length 4): at column 2 the tab is removed
and the cursor goes to column 1; at column 4 nothing is removed and the cursor goes to
column 3. -/
theorem c15_backspace_in_row_witness :
    (∃ e1, process_key ⟨[], 1, 2, 0, [], [Row.inserted 0 ['a', '\t']]⟩ 127 = some e1 ∧
      e1.rows = [Row.inserted 0 ['a']] ∧
      (['a'] : List Char).length + 1 = (['a', '\t'] : List Char).length ∧
      e1.number_of_rows = 1 ∧ e1.cursor_y = 0 ∧ e1.cursor_x = 2 - 1) ∧
    process_key ⟨[], 1, 4, 0, [], [Row.inserted 0 ['a', '\t']]⟩ 127
      = some ⟨[], 1, 4 - 1, 0, [], [Row.inserted 0 ['a', '\t']]⟩ :=
  ⟨(c15_backspace_in_row ⟨[], 1, 2, 0, [], [Row.inserted 0 ['a', '\t']]⟩
      (Row.inserted 0 ['a', '\t']) rfl (by decide) (by decide) rfl (by decide) (by decide)
      (by decide)).1 (by decide),
    (c15_backspace_in_row ⟨[], 1, 4, 0, [], [Row.inserted 0 ['a', '\t']]⟩
      (Row.inserted 0 ['a', '\t']) rfl (by decide) (by decide) rfl (by decide) (by decide)
      (by decide)).2 (by decide)⟩

/-- C15 as stated fails on the row `<TAB>` (raw length 1, display of four spaces, equal to
the expansion of the raw content) with the cursor at column 4: the handler of the key 127
returns the same row, so no state it could return has a raw row 0 one character shorter. -/
theorem c15_backspace_counterexample :
    (∀ r ∈ [Row.inserted 0 ['\t']], r.printed = tabExpansion r.characters) ∧
    (0 : Int) < 4 ∧ (4 : Int) ≤ ((Row.inserted 0 ['\t']).printed.length : Int) ∧
    process_key ⟨[], 1, 4, 0, [], [Row.inserted 0 ['\t']]⟩ 127
      = some ⟨[], 1, 3, 0, [], [Row.inserted 0 ['\t']]⟩ ∧
    ¬ ∃ e1 r1, process_key ⟨[], 1, 4, 0, [], [Row.inserted 0 ['\t']]⟩ 127 = some e1 ∧
        e1.rows[0]? = some r1 ∧
        r1.characters.length + 1 = (Row.inserted 0 ['\t']).characters.length := by
  have h : process_key ⟨[], 1, 4, 0, [], [Row.inserted 0 ['\t']]⟩ 127
      = some ⟨[], 1, 3, 0, [], [Row.inserted 0 ['\t']]⟩ := by decide
  refine ⟨by decide, by decide, by decide, h, ?_⟩
  rintro ⟨e1, r1, h1, h2, h3⟩
  rw [h] at h1
  rw [← Option.some.inj h1] at h2
  simp only [List.getElem?_cons_zero, Option.some.injEq] at h2
  rw [← h2] at h3
  revert h3
  decide

/-! ## Loading a file -/

theorem load_loop_spec (cs : List Char) :
    ∀ (rows : List Row) (cur : Row),
      ((if (load_loop cs rows cur).2.characters ≠ []
          then (load_loop cs rows cur).1 ++ [(load_loop cs rows cur).2]
          else (load_loop cs rows cur).1).map Row.characters
        = rows.map Row.characters
          ++ (List.splitOnP.go (· == '\n') cs cur.characters.reverse).filter
              (fun s => decide (s ≠ []))) := by
  induction cs with
  | nil =>
    intro rows cur
    by_cases h : cur.characters = []
    · simp [load_loop, List.splitOnP.go, h]
    · simp [load_loop, List.splitOnP.go, h]
  | cons c cs ih =>
    intro rows cur
    by_cases hc : c = '\n'
    · have e2 : List.splitOnP.go (· == '\n') (c :: cs) cur.characters.reverse
          = cur.characters :: List.splitOnP.go (· == '\n') cs [] := by
        simp [List.splitOnP.go, hc]
      by_cases h : cur.characters = []
      · have e1 : load_loop (c :: cs) rows cur = load_loop cs rows cur := by
          have h1 : ¬ cur.characters ≠ [] := by simp [h]
          rw [load_loop, if_pos hc, if_neg h1]
        have := ih rows cur
        rw [h, List.reverse_nil] at this
        rw [e1, e2, h, List.filter_cons_of_neg (by simp)]
        exact this
      · have e1 : load_loop (c :: cs) rows cur
            = load_loop cs (rows ++ [cur]) { cur with characters := [] } := by
          rw [load_loop, if_pos hc, if_pos h]
        have := ih (rows ++ [cur]) { cur with characters := [] }
        rw [List.reverse_nil, List.map_append, List.map_singleton, List.append_assoc,
          List.singleton_append] at this
        rw [e1, e2, List.filter_cons_of_pos (by simpa using h)]
        exact this
    · have e1 : load_loop (c :: cs) rows cur
          = load_loop cs rows { cur with characters := cur.characters ++ [c] } := by
        rw [load_loop, if_neg hc]
      have e2 : List.splitOnP.go (· == '\n') (c :: cs) cur.characters.reverse
          = List.splitOnP.go (· == '\n') cs (cur.characters ++ [c]).reverse := by
        simp [List.splitOnP.go, hc]
      have := ih rows { cur with characters := cur.characters ++ [c] }
      rw [e1, e2]
      exact this

theorem splitOnP_go_no_separator (cs : List Char) :
    ∀ acc : List Char, '\n' ∉ acc →
      ∀ s ∈ List.splitOnP.go (· == '\n') cs acc, '\n' ∉ s := by
  induction cs with
  | nil =>
    intro acc hacc s hs
    simp only [List.splitOnP.go, List.mem_singleton] at hs
    rw [hs]
    simpa using hacc
  | cons c cs ih =>
    intro acc hacc s hs
    by_cases hc : c = '\n'
    · simp only [List.splitOnP.go, hc, beq_self_eq_true, if_true, List.mem_cons] at hs
      rcases hs with h | h
      · rw [h]; simpa using hacc
      · exact ih [] (by simp) s h
    · have hb : (c == '\n') = false := by simpa using hc
      simp only [List.splitOnP.go, hb] at hs
      refine ih (c :: acc) ?_ s hs
      intro hmem
      rcases List.mem_cons.1 hmem with h | h
      · exact hc h.symm
      · exact hacc h

theorem load_file_rows (e : Editor) (filename bytes : List Char) (garbage : Int)
    (hname : filename ≠ []) :
    (load_file e filename (some bytes) garbage).rows.map Row.characters
      = nonEmptySegments bytes := by
  have := load_loop_spec bytes []
    { index := 0, characters := [], printed := [], highlight_open_comment := garbage }
  simp only [List.map_nil, List.nil_append, List.reverse_nil] at this
  unfold load_file nonEmptySegments List.splitOn List.splitOnP
  simp only [hname, if_false]
  exact this

/-- C17: for a non-empty file name and a file that opens, `load_file` leaves in `rows`
exactly the non-empty maximal newline-free segments of the bytes read, in order, as raw
contents: no loaded row is empty, none contains a newline, an empty line yields no row, and
a last segment without a final newline is kept.  The content `abc\n\ndef\n` loads as the two
rows `abc` and `def`, and so does `abc\ndef`. -/
theorem c17_load_file_segments (e : Editor) (filename bytes : List Char) (garbage : Int)
    (hname : filename ≠ []) :
    (load_file e filename (some bytes) garbage).rows.map Row.characters
      = nonEmptySegments bytes ∧
    (∀ r ∈ (load_file e filename (some bytes) garbage).rows,
      r.characters ≠ [] ∧ '\n' ∉ r.characters) ∧
    (load_file e filename (some ['a', 'b', 'c', '\n', '\n', 'd', 'e', 'f', '\n'])
        garbage).rows.map Row.characters = [['a', 'b', 'c'], ['d', 'e', 'f']] ∧
    (load_file e filename (some ['a', 'b', 'c', '\n', 'd', 'e', 'f'])
        garbage).rows.map Row.characters = [['a', 'b', 'c'], ['d', 'e', 'f']] := by
  refine ⟨load_file_rows e filename bytes garbage hname, ?_, ?_, ?_⟩
  · intro r hr
    have hmem : r.characters ∈ nonEmptySegments bytes := by
      rw [← load_file_rows e filename bytes garbage hname]
      exact List.mem_map_of_mem _ hr
    unfold nonEmptySegments at hmem
    rw [List.mem_filter] at hmem
    refine ⟨by simpa using hmem.2, ?_⟩
    exact splitOnP_go_no_separator bytes [] (by simp) _ hmem.1
  · rw [load_file_rows e filename _ garbage hname]
    decide
  · rw [load_file_rows e filename _ garbage hname]
    decide

/-- C17 on the file `x.c` with the content `a\n\n\nb`. -/
theorem c17_load_file_segments_witness :
    (['x', '.', 'c'] : List Char) ≠ [] ∧
    (load_file (init edit) ['x', '.', 'c'] (some ['a', '\n', '\n', '\n', 'b'])
        0).rows.map Row.characters = [['a'], ['b']] :=
  ⟨by decide,
    (c17_load_file_segments (init edit) ['x', '.', 'c'] ['a', '\n', '\n', '\n', 'b'] 0
      (by decide)).1.trans (by decide)⟩

/-! ## Evaluations of the key handler and of the loader -/

/-- C11: evaluation of the tab case of `process_key` on the single row `a` (display `a`)
with the cursor at `(0, 1)`.  The tab enters the raw content, which becomes `a<TAB>`, but
the display stays `a`; the expansion of the new raw content is `a` and three spaces. -/
theorem c11_tab_key_eval :
    process_key ⟨[], 1, 1, 0, [], [⟨0, ['a'], ['a'], 0⟩]⟩ 9
      = some ⟨[], 1, 1, 0, [], [⟨0, ['a', '\t'], ['a'], 0⟩]⟩ ∧
    tabExpansion ['a', '\t'] = ['a', ' ', ' ', ' '] ∧
    ['a'] ≠ tabExpansion ['a', '\t'] := by
  decide

/-- C18: evaluation of `init` followed by `load_file` on a file with the content `a\nb\n`.
Two rows are loaded, but `number_of_rows` is still 0, both rows carry the index 0, and no
display has been computed. -/
theorem c18_load_file_eval :
    load_file (init edit) ['f'] (some ['a', '\n', 'b', '\n']) 0
      = ⟨['f'], 0, 0, 0, [], [⟨0, ['a'], [], 0⟩, ⟨0, ['b'], [], 0⟩]⟩ ∧
    (load_file (init edit) ['f'] (some ['a', '\n', 'b', '\n']) 0).number_of_rows
      ≠ (load_file (init edit) ['f'] (some ['a', '\n', 'b', '\n']) 0).rows.length ∧
    ((load_file (init edit) ['f'] (some ['a', '\n', 'b', '\n']) 0).rows[1]?).map Row.index
      = some 0 := by
  decide

/-- C19: evaluations of `process_key` on states reached from `init`.  The tab key on the
empty start-up buffer accesses `rows[0]` of an empty vector.  After the keys `a` and DOWN
the cursor is at `(1, 0)`, past the only row; there the newline key, the tab key and the key
127 each access `rows[1]`, which does not exist. -/
theorem c19_keys_access_missing_row_eval :
    process_key (init edit) 9 = none ∧
    run_keys (init edit) [97, KEY_DOWN]
      = some ⟨[], 1, 0, 1, [], [⟨0, ['a'], ['a'], 0⟩]⟩ ∧
    run_keys (init edit) [97, KEY_DOWN, 10] = none ∧
    run_keys (init edit) [97, KEY_DOWN, 9] = none ∧
    run_keys (init edit) [97, KEY_DOWN, 127] = none := by
  decide

end Tex
